import Mathlib

/-!
# Editable text viewport engine: `internal/editor/editor_item.go`

A shallow embedding of the state-carrying methods of `EditorItem` and the
properties they satisfy.

Modelling conventions.

* A Go `string` holding valid UTF-8 is the sequence of its runes, `List Char`;
  `utf8.RuneCountInString` is `List.length` and `for _, r := range s` visits
  the elements in order.
* A finite `float64` is the rational it denotes (`ℚ`); infinities and NaN
  are outside the model. A quotient that is converted to an integer and the
  sums, differences and products of the scrolling arithmetic are rounded to
  binary64 (`roundF64`, round to nearest, ties to even), each operation on its
  own. The products that size the content and place the selection rectangles
  are written as the source writes them, as products of their operands.
* A Go `int` is an `Int`; where the operands of an addition or subtraction
  are not bounded by the length of the text the 64-bit wraparound is written
  out with `wrap64`.
-/

namespace Editor

/-- A text: the runes of a Go string. -/
abbrev Text := List Char

/-! ## Line index -/

/-- One iteration of the loop of `getLines` (lines 400-407): the state is
`(lines, currentLine)`. -/
def getLinesStep (st : List Text × Text) (r : Char) : List Text × Text :=
  if r = '\n' then (st.1 ++ [st.2], []) else (st.1, st.2 ++ [r])

/-- The function `getLines` (lines 393-412) on the text `e._text`. -/
def getLines (text : Text) : List Text :=
  if text = [] then []
  else
    let st := text.foldl getLinesStep ([], [])
    if st.2 ≠ [] then st.1 ++ [st.2] else st.1

/-- Prepend `cur` to the first segment of a list of segments. -/
def glue (cur : Text) : List Text → List Text
  | [] => [cur]
  | s :: ss => (cur ++ s) :: ss

/-! ## Machine arithmetic -/

/-- Two's-complement wraparound of the result of a 64-bit `int` operation. -/
def wrap64 (x : Int) : Int := (x + 2 ^ 63) % 2 ^ 64 - 2 ^ 63

/-- Truncation of a rational toward zero. -/
def truncate (q : ℚ) : Int := Int.tdiv q.num q.den

/-- The conversion `int(x)` of a `float64` to the 64-bit `int`: the fractional
part is discarded. When the result does not fit, Go leaves the value to the
implementation; `-2^63` is what amd64 yields. -/
def truncToInt (q : ℚ) : Int :=
  if -2 ^ 63 ≤ truncate q ∧ truncate q < 2 ^ 63 then truncate q else -2 ^ 63

/-- Rounding of a rational to the nearest integer, a tie going to the even
one. -/
def roundEven (x : ℚ) : Int :=
  if x - (⌊x⌋ : ℚ) < 1 / 2 then ⌊x⌋
  else if 1 / 2 < x - (⌊x⌋ : ℚ) then ⌊x⌋ + 1
  else if ⌊x⌋ % 2 = 0 then ⌊x⌋ else ⌊x⌋ + 1

/-- The exponent of the unit in the last place of the binary64 numbers around
`q`: 52 below the binary exponent of `q`, which is at least `-1022` (below
that the numbers are subnormal and equally spaced). -/
def ulpExp (q : ℚ) : Int := max (Int.log 2 |q|) (-1022) - 52

/-- Rounding of an exact result to binary64: the nearest multiple of the unit
in the last place, ties to even. Overflow to an infinity is not modelled. -/
def roundF64 (q : ℚ) : ℚ := (roundEven (q / 2 ^ ulpExp q) : ℚ) * 2 ^ ulpExp q

/-- The `float64` sum `a + b`. -/
def fadd (a b : ℚ) : ℚ := roundF64 (a + b)

/-- The `float64` difference `a - b`. -/
def fsub (a b : ℚ) : ℚ := roundF64 (a - b)

/-- The `float64` product `a * b`. -/
def fmul (a b : ℚ) : ℚ := roundF64 (a * b)

/-- The `float64` quotient `a / b`, for `b` other than zero. -/
def fdiv (a b : ℚ) : ℚ := roundF64 (a / b)

/-- The conversion `float64(i)` of an `int`. -/
def float64 (i : Int) : ℚ := roundF64 (i : ℚ)

/-! ## The mutex `e.mutex` -/

/-- Why a call does not return: it waits forever for a lock (`blocked`), or
the runtime aborts on an unlock of an unlocked mutex (`fatal`). -/
inductive Fault where
  | blocked
  | fatal
  deriving DecidableEq, Repr

/-- State of a `sync.RWMutex` seen by the single caller that drives the item:
nobody else will ever release a lock this caller is waiting for. -/
inductive RWMutex where
  | unlocked
  | writeLocked
  | readLocked (readers : Nat)
  deriving DecidableEq, Repr

/-- The call `mutex.Lock()`: waits until no reader and no writer holds it. -/
def RWMutex.Lock : RWMutex → Except Fault RWMutex
  | .unlocked => .ok .writeLocked
  | .writeLocked => .error .blocked
  | .readLocked _ => .error .blocked

/-- The call `mutex.Unlock()`. -/
def RWMutex.Unlock : RWMutex → Except Fault RWMutex
  | .writeLocked => .ok .unlocked
  | .unlocked => .error .fatal
  | .readLocked _ => .error .fatal

/-- The call `mutex.RLock()`: waits while a writer holds the mutex. -/
def RWMutex.RLock : RWMutex → Except Fault RWMutex
  | .unlocked => .ok (.readLocked 1)
  | .readLocked n => .ok (.readLocked (n + 1))
  | .writeLocked => .error .blocked

/-- The call `mutex.RUnlock()`. -/
def RWMutex.RUnlock : RWMutex → Except Fault RWMutex
  | .readLocked (n + 2) => .ok (.readLocked (n + 1))
  | .readLocked 1 => .ok .unlocked
  | .readLocked 0 => .error .fatal
  | .unlocked => .error .fatal
  | .writeLocked => .error .fatal

/-! ## State of an `EditorItem` -/

/-- A signal emitted by the item (lines 73-76), with its arguments. -/
inductive Signal where
  | textChanged (text : Text)
  | cursorPositionChanged (line column : Int)
  | selectionChanged (startLine endLine : Int)
  | scrollPositionChanged (y : ℚ)
  deriving DecidableEq

/-- The primitives of the external package `lime-backend` that the item
calls on `e.view` and `e.buffer`; `β` is the state of the buffer and the view
that shares it. Their behaviour is not part of this repository. -/
structure BackendOps (β : Type) where
  string : β → Text
  cursor : β → Int × Int
  insert : β → Text → β
  backspace : β → β
  delete : β → β
  pageUp : β → β
  pageDown : β → β

/-- The fields of `EditorItem` (lines 21-77) that the modelled methods read or
write. `view` and `buffer` say whether the pointers are non-nil, `backend` is
the object they point to, `width` and `height` are `e.Width()` and
`e.Height()` of the embedded `QQuickItem`, and `signals` is the log of the
signals emitted so far, oldest first. -/
structure EditorItem (β : Type) where
  view : Bool
  buffer : Bool
  backend : β
  mutex : RWMutex
  _text : Text
  _cursorPosition : Int
  _selectionStart : Int
  _selectionEnd : Int
  charWidth : ℚ
  charHeight : ℚ
  visibleLines : Int
  visibleColumns : Int
  contentWidth : ℚ
  contentHeight : ℚ
  scrollPosition : ℚ
  targetScrollY : ℚ
  currentScrollY : ℚ
  cursorLine : Int
  cursorColumn : Int
  selectionActive : Bool
  selectionLines : Int
  cacheValid : Bool
  width : ℚ
  height : ℚ
  signals : List Signal

/-- An item with the given metrics, geometry and backend, non-nil `view` and
`buffer`, and every other field at its zero value. -/
def EditorItem.fresh {β : Type} (charWidth charHeight width height : ℚ) (backend : β) :
    EditorItem β :=
  { view := true, buffer := true, backend := backend, mutex := .unlocked,
    _text := [], _cursorPosition := 0, _selectionStart := 0, _selectionEnd := 0,
    charWidth := charWidth, charHeight := charHeight,
    visibleLines := 0, visibleColumns := 0, contentWidth := 0, contentHeight := 0,
    scrollPosition := 0, targetScrollY := 0, currentScrollY := 0,
    cursorLine := 0, cursorColumn := 0, selectionActive := false, selectionLines := 0,
    cacheValid := false, width := width, height := height, signals := [] }

/-- Backend primitives of a toy backend whose state is just its text, with
the cursor fixed at the origin; used for concrete instances only. -/
def toyOps : BackendOps Text :=
  { string := fun b => b, cursor := fun _ => (0, 0),
    insert := fun b t => b ++ t, backspace := fun b => b.dropLast,
    delete := fun b => b.tail, pageUp := fun b => b, pageDown := fun b => b }

variable {β : Type}

/-! ## Content size -/

/-- The loop of lines 330-336: the largest rune count of a line, from 0. -/
def maxWidth (lines : List Text) : Int :=
  lines.foldl (fun m line => if (line.length : Int) > m then (line.length : Int) else m) 0

/-- The method `updateContentSize` (lines 326-350). -/
def updateContentSize (e : EditorItem β) : EditorItem β :=
  if e.charWidth > 0 ∧ e.charHeight > 0 then
    let lines := getLines e._text
    { e with
      contentWidth := (maxWidth lines : ℚ) * e.charWidth
      contentHeight := (lines.length : ℚ) * e.charHeight
      visibleColumns := truncToInt (fdiv e.width e.charWidth)
      visibleLines := truncToInt (fdiv e.height e.charHeight) }
  else e

/-- The method `setText` (lines 244-253). -/
def setText (e : EditorItem β) (text : Text) : Except Fault (EditorItem β) := do
  let m ← e.mutex.Lock
  let e := { e with mutex := m }
  let e :=
    if e._text ≠ text then
      let e := updateContentSize { e with _text := text }
      { e with cacheValid := false, signals := e.signals ++ [Signal.textChanged text] }
    else e
  let m ← e.mutex.Unlock
  pure { e with mutex := m }

/-- The method `geometryChanged` (lines 582-587); the base-class call has
already recorded the new width and height. -/
def geometryChanged (e : EditorItem β) (newWidth newHeight : ℚ) : EditorItem β :=
  let e := updateContentSize { e with width := newWidth, height := newHeight }
  { e with cacheValid := false }

/-! ## Selection -/

/-- The first loop of `updateSelectionInfo` (lines 366-374) over the lines
not yet visited, at index `i` with running count `charCount`; returns
`(startLine, charCount)`. `startLine` keeps its initial 0 when the loop ends
without a `break`. -/
def selStartLoop (selectionStart : Int) : List Text → Int → Int → Int × Int
  | [], _, charCount => (0, charCount)
  | line :: rest, i, charCount =>
    if charCount ≥ selectionStart then (i, charCount)
    else selStartLoop selectionStart rest (i + 1) (charCount + (line.length : Int) + 1)

/-- The second loop of `updateSelectionInfo` (lines 376-383) over the lines
from index `i` on; returns `endLine`, which keeps its initial value
`startLine` when the loop ends without a `break`. -/
def selEndLoop (selectionEnd startLine : Int) : List Text → Int → Int → Int
  | [], _, _ => startLine
  | line :: rest, i, charCount =>
    if charCount ≥ selectionEnd then i
    else selEndLoop selectionEnd startLine rest (i + 1) (charCount + (line.length : Int) + 1)

/-- The method `updateSelectionInfo` (lines 361-391). -/
def updateSelectionInfo (e : EditorItem β) : EditorItem β :=
  if e._selectionStart ≠ e._selectionEnd then
    let lines := getLines e._text
    let r := selStartLoop e._selectionStart lines 0 0
    let startLine := r.1
    let endLine := selEndLoop e._selectionEnd startLine (lines.drop startLine.toNat) startLine r.2
    { e with
      selectionActive := true
      selectionLines := endLine - startLine + 1
      signals := e.signals ++ [Signal.selectionChanged (startLine + 1) (endLine + 1)] }
  else
    { e with selectionActive := false, selectionLines := 0 }

/-- The method `SetSelection` (lines 282-290). -/
def SetSelection (e : EditorItem β) (start stop : Int) : Except Fault (EditorItem β) := do
  let m ← e.mutex.Lock
  let e := { e with mutex := m }
  let e :=
    if e._selectionStart ≠ start ∨ e._selectionEnd ≠ stop then
      updateSelectionInfo { e with _selectionStart := start, _selectionEnd := stop }
    else e
  let m ← e.mutex.Unlock
  pure { e with mutex := m }

/-- The accessor `SelectionStart` (lines 270-274): the value read and the
item with the mutex released again. -/
def SelectionStart (e : EditorItem β) : Except Fault (Int × EditorItem β) := do
  let m ← e.mutex.RLock
  let v := e._selectionStart
  let m ← m.RUnlock
  pure (v, { e with mutex := m })

/-- The accessor `SelectionEnd` (lines 276-280). -/
def SelectionEnd (e : EditorItem β) : Except Fault (Int × EditorItem β) := do
  let m ← e.mutex.RLock
  let v := e._selectionEnd
  let m ← m.RUnlock
  pure (v, { e with mutex := m })

/-- Offset of the first character of line `i`: the sum of (length + 1) over
the lines before it. -/
def lineStart (lines : List Text) (i : Nat) : Int :=
  ((lines.take i).map (fun line => (line.length : Int) + 1)).sum

/-- An offset lies on line `i` when the count of the lines before `i` is at
most the offset and that count plus the length of line `i` is at least it. -/
def liesOnLine (lines : List Text) (offset : Int) (i : Nat) : Prop :=
  i < lines.length ∧ lineStart lines i ≤ offset ∧
    offset ≤ lineStart lines i + ((lines.getD i []).length : Int)

instance (lines : List Text) (offset : Int) (i : Nat) : Decidable (liesOnLine lines offset i) := by
  unfold liesOnLine; infer_instance

/-! ## Synchronisation with the backend and editing -/

/-- The method `updateCursorFromPosition` (lines 352-359). -/
def updateCursorFromPosition (ops : BackendOps β) (e : EditorItem β) : EditorItem β :=
  if e.view then
    let lc := ops.cursor e.backend
    { e with
      cursorLine := lc.1
      cursorColumn := lc.2
      signals := e.signals ++ [Signal.cursorPositionChanged (wrap64 (lc.1 + 1)) (wrap64 (lc.2 + 1))] }
  else e

/-- The method `updateTextFromBackend` (lines 154-162). -/
def updateTextFromBackend (ops : BackendOps β) (e : EditorItem β) :
    Except Fault (EditorItem β) :=
  if e.buffer then do
    let m ← e.mutex.RLock
    let text := ops.string e.backend
    let m ← m.RUnlock
    setText { e with mutex := m } text
  else pure e

/-- The common body of `InsertText`, `Backspace` and `DeleteChar` once the
backend primitive `edit` is chosen: lock, the guarded block, and the
deferred unlock on return. `e.Update()` only schedules a repaint. -/
def editWith (ops : BackendOps β) (edit : β → β) (e : EditorItem β) :
    Except Fault (EditorItem β) := do
  let m ← e.mutex.Lock
  let e := { e with mutex := m }
  let e ←
    if e.view then do
      let e := { e with backend := edit e.backend }
      let e ← updateTextFromBackend ops e
      let e := updateCursorFromPosition ops e
      pure { e with cacheValid := false }
    else pure e
  let m ← e.mutex.Unlock
  pure { e with mutex := m }

/-- The method `InsertText` (lines 416-427). -/
def InsertText (ops : BackendOps β) (e : EditorItem β) (text : Text) :
    Except Fault (EditorItem β) :=
  editWith ops (fun b => ops.insert b text) e

/-- The method `Backspace` (lines 429-440). -/
def Backspace (ops : BackendOps β) (e : EditorItem β) : Except Fault (EditorItem β) :=
  editWith ops ops.backspace e

/-- The method `DeleteChar` (lines 442-453). -/
def DeleteChar (ops : BackendOps β) (e : EditorItem β) : Except Fault (EditorItem β) :=
  editWith ops ops.delete e

/-! ## Scrolling -/

/-- The method `UpdateScrollPosition` (lines 528-531). -/
def UpdateScrollPosition (e : EditorItem β) (y : ℚ) : EditorItem β :=
  { e with scrollPosition := y, currentScrollY := y }

/-- The method `PageUp` (lines 503-510). -/
def PageUp (ops : BackendOps β) (e : EditorItem β) : EditorItem β :=
  if e.view then
    let e := updateCursorFromPosition ops { e with backend := ops.pageUp e.backend }
    { e with signals := e.signals ++
        [Signal.scrollPositionChanged
          (fsub e.scrollPosition (fmul (float64 e.visibleLines) e.charHeight))] }
  else e

/-- The method `PageDown` (lines 512-519). -/
def PageDown (ops : BackendOps β) (e : EditorItem β) : EditorItem β :=
  if e.view then
    let e := updateCursorFromPosition ops { e with backend := ops.pageDown e.backend }
    { e with signals := e.signals ++
        [Signal.scrollPositionChanged
          (fadd e.scrollPosition (fmul (float64 e.visibleLines) e.charHeight))] }
  else e

/-- The method `ScrollToLine` (lines 521-526). -/
def ScrollToLine (e : EditorItem β) (line : Int) : EditorItem β :=
  let targetY := fmul (float64 line) e.charHeight
  { e with targetScrollY := targetY, signals := e.signals ++ [Signal.scrollPositionChanged targetY] }

/-! ## Rendering -/

/-- The loop bounds `(firstLine, lastLine)` of `renderTextContent` as they
stand when the loop starts (lines 629-637), for `n = len(lines)`. -/
def visibleRange (e : EditorItem β) (n : Int) : Int × Int :=
  let firstLine := truncToInt (fdiv e.scrollPosition e.charHeight)
  let lastLine := wrap64 (firstLine + e.visibleLines + 1)
  let firstLine := if firstLine < 0 then 0 else firstLine
  let lastLine := if lastLine > n then n else lastLine
  (firstLine, lastLine)

/-- A call `painter.DrawText(QPointF(x, y), text)`. -/
structure TextDraw where
  x : ℚ
  y : ℚ
  text : Text
  deriving DecidableEq

/-- The drawing loop of `renderTextContent` (lines 640-653), `count`
iterations from index `i` on. -/
def renderTextLoop (e : EditorItem β) (lines : List Text) (lastLine : Int) :
    Nat → Int → List TextDraw
  | 0, _ => []
  | count + 1, i =>
    if i < lastLine then
      if i ≥ (lines.length : Int) then []
      else
        let y := fsub (fmul (float64 i) e.charHeight) e.scrollPosition
        if y < -e.charHeight ∨ y > e.height then renderTextLoop e lines lastLine count (i + 1)
        else
          ⟨60, fadd y (fmul e.charHeight (roundF64 (4 / 5))), lines.getD i.toNat []⟩ ::
            renderTextLoop e lines lastLine count (i + 1)
    else []

/-- The method `renderTextContent` (lines 622-654): the text drawn, in order. -/
def renderTextContent (e : EditorItem β) : List TextDraw :=
  let lines := getLines e._text
  if lines.length = 0 then []
  else
    let r := visibleRange e lines.length
    renderTextLoop e lines r.2 (r.2 - r.1).toNat r.1

/-- A call `painter.FillRect(QRectF(x, y, width, height), selectionColor)`. -/
structure Rect where
  x : ℚ
  y : ℚ
  width : ℚ
  height : ℚ
  deriving DecidableEq

/-- The body of the loop of `renderSelection` for line `i` (lines 678-701):
the rectangle filled for this line, if any. -/
def selectionRect (e : EditorItem β) (i : Nat) (line : Text) (charCount : Int) : Option Rect :=
  let lineStart := charCount
  let lineEnd := charCount + (line.length : Int)
  if e._selectionStart ≤ lineEnd ∧ e._selectionEnd ≥ lineStart then
    let start := wrap64 (e._selectionStart - lineStart)
    let stop := wrap64 (e._selectionEnd - lineStart)
    let start := if start < 0 then 0 else start
    let stop := if stop > (line.length : Int) then (line.length : Int) else stop
    if start < stop then
      some ⟨60 + (start : ℚ) * e.charWidth, (i : ℚ) * e.charHeight - e.scrollPosition,
        ((stop - start : Int) : ℚ) * e.charWidth, e.charHeight⟩
    else none
  else none

/-- The loop of `renderSelection` (lines 676-704) over the lines from index
`i` on, with running count `charCount`. -/
def renderSelectionLoop (e : EditorItem β) : List Text → Nat → Int → List Rect
  | [], _, _ => []
  | line :: rest, i, charCount =>
    (selectionRect e i line charCount).toList ++
      renderSelectionLoop e rest (i + 1) (charCount + (line.length : Int) + 1)

/-- The method `renderSelection` (lines 667-705): the rectangles filled, in
order. -/
def renderSelection (e : EditorItem β) : List Rect :=
  if !e.selectionActive || e._selectionStart == e._selectionEnd then []
  else renderSelectionLoop e (getLines e._text) 0 0

/-- The item of the scenarios: the given text set on a fresh item with
`charWidth` 8, the given `charHeight`, and a viewport of the given height. -/
def scenario (text : Text) (charHeight height : ℚ) : EditorItem Text :=
  updateContentSize { EditorItem.fresh 8 charHeight 640 height text with _text := text }

/-- The number `m` is the largest character count of any line of `lines`,
and 0 when there are no lines. -/
def IsMaxLineLength (lines : List Text) (m : Nat) : Prop :=
  (∀ line ∈ lines, line.length ≤ m) ∧ (lines = [] → m = 0) ∧
    (lines ≠ [] → ∃ line ∈ lines, line.length = m)

/-- The rectangle on line `i` that covers the columns of the selection
clipped to the line, from `max 0 (start - S)` to `min len (end - S)` where `S`
is the offset of the first character of the line and `len` its length; none
when this column range is empty. -/
def clippedRect (e : EditorItem β) (lines : List Text) (i : Nat) : Option Rect :=
  let a := max 0 (e._selectionStart - lineStart lines i)
  let b := min ((lines.getD i []).length : Int) (e._selectionEnd - lineStart lines i)
  if a < b then
    some ⟨60 + (a : ℚ) * e.charWidth, (i : ℚ) * e.charHeight - e.scrollPosition,
      ((b - a : Int) : ℚ) * e.charWidth, e.charHeight⟩
  else none

/-- The span of a line index as the data model counts it: the sum of
(length + 1) over every line but the last, plus the length of the last
line. -/
def indexSpan (lines : List Text) : Nat :=
  (lines.dropLast.map (fun line => line.length + 1)).sum + (lines.getLast?.getD []).length

/-- Modelled from the spec: the handler of the signal `scrollPositionChanged`,
which is connected outside the Go sources. Every scroll position announced
after the state `before` is applied to `after` through `UpdateScrollPosition`,
oldest first. -/
def applyAnnounced (before after : EditorItem β) : EditorItem β :=
  (after.signals.drop before.signals.length).foldl
    (fun s sig =>
      match sig with
      | Signal.scrollPositionChanged y => UpdateScrollPosition s y
      | _ => s)
    after

/-- The call `PageDown()` followed by the handling of what it announced. -/
def pageDownApplied (ops : BackendOps β) (e : EditorItem β) : EditorItem β :=
  applyAnnounced e (PageDown ops e)

/-- The call `PageUp()` followed by the handling of what it announced. -/
def pageUpApplied (ops : BackendOps β) (e : EditorItem β) : EditorItem β :=
  applyAnnounced e (PageUp ops e)

/-- The column `c` of line `i` lies under the selection from `s` to `e`:
`0 ≤ c < len(line i)` and `s ≤ S_i + c < e`, where `S_i` is the offset of the
first character of the line. -/
def selectedColumn (lines : List Text) (s e : Int) (i : Nat) (c : Int) : Prop :=
  0 ≤ c ∧ c < ((lines.getD i []).length : Int) ∧
    s ≤ lineStart lines i + c ∧ lineStart lines i + c < e

instance (lines : List Text) (s e : Int) (i : Nat) (c : Int) :
    Decidable (selectedColumn lines s e i c) := by
  unfold selectedColumn; infer_instance

/-- The number of characters of a text, other than newlines, at offsets in
`[s, e)`, the first character of the text being at `offset`. -/
def selectedChars (s e : Int) : Text → Int → Nat
  | [], _ => 0
  | c :: cs, offset =>
    (if c ≠ '\n' ∧ s ≤ offset ∧ offset < e then 1 else 0) + selectedChars s e cs (offset + 1)

/-- The total width of a list of rectangles. -/
def totalWidth (rects : List Rect) : ℚ :=
  (rects.map Rect.width).sum

/-- The lines of a line index written out again, each followed by a
newline. -/
def unlines (lines : List Text) : Text :=
  (lines.map (fun line => line ++ ['\n'])).flatten

/-- The `float64` nearest to 16.8, the value of the Go constant `16.8`. -/
def float16_8 : ℚ := 4728779608739021 / 2 ^ 48

/-- An item with a non-nil view, `charHeight` 16.8, 28 visible lines and the
scroll position at 16.8, the top of line 1. -/
def pagingExample : EditorItem Text :=
  { EditorItem.fresh 8 float16_8 640 480 [] with visibleLines := 28, scrollPosition := float16_8 }

/-! ## Lemmas on the line index -/

theorem splitOn_ne_nil (T : Text) : T.splitOn '\n' ≠ [] :=
  List.splitOnP_ne_nil _ T

theorem splitOn_cons (c : Char) (T : Text) :
    (c :: T).splitOn '\n' =
      if c = '\n' then [] :: T.splitOn '\n'
      else (T.splitOn '\n').modifyHead (List.cons c) := by
  simp only [List.splitOn, List.splitOnP_cons, beq_iff_eq]

theorem glue_nil_left (segs : List Text) (h : segs ≠ []) : glue [] segs = segs := by
  cases segs with
  | nil => exact absurd rfl h
  | cons s ss => rfl

/-- The loop of `getLines` started in state `(lines, cur)` leaves the segments
of the remaining text appended to the lines, the first one glued to `cur`. -/
theorem foldl_getLinesStep (T : Text) (lines : List Text) (cur : Text) :
    (T.foldl getLinesStep (lines, cur)).1 ++ [(T.foldl getLinesStep (lines, cur)).2]
      = lines ++ glue cur (T.splitOn '\n') := by
  induction T generalizing lines cur with
  | nil => simp [glue]
  | cons c cs ih =>
    rw [List.foldl_cons, splitOn_cons]
    by_cases hc : c = '\n'
    · simp only [getLinesStep, hc, if_true]
      rw [ih, glue_nil_left _ (splitOn_ne_nil cs)]
      simp [glue]
    · simp only [getLinesStep, hc, if_false]
      rw [ih]
      cases hs : cs.splitOn '\n' with
      | nil => exact absurd hs (splitOn_ne_nil cs)
      | cons s ss => simp [glue, List.modifyHead]

/-- The state after the loop of `getLines`, from the initial state. -/
theorem foldl_getLinesStep_init (T : Text) :
    (T.foldl getLinesStep ([], [])).1 ++ [(T.foldl getLinesStep ([], [])).2]
      = T.splitOn '\n' := by
  rw [foldl_getLinesStep, List.nil_append, glue_nil_left _ (splitOn_ne_nil T)]

/-- The current line after the loop is empty exactly when the text is empty
or ends in a newline. -/
theorem foldl_getLinesStep_snd (T : Text) (lines : List Text) (cur : Text) :
    (T.foldl getLinesStep (lines, cur)).2 = [] ↔
      (T = [] ∧ cur = []) ∨ T.getLast? = some '\n' := by
  induction T using List.reverseRecOn generalizing lines cur with
  | nil => simp
  | append_singleton T r _ =>
    rw [List.foldl_append, List.foldl_cons, List.foldl_nil]
    by_cases hr : r = '\n'
    · simp [getLinesStep, hr]
    · simp [getLinesStep, hr]

theorem dropLast_eq_of_append_singleton {α : Type} (xs ys : List α) (y : α)
    (h : xs ++ [y] = ys) : xs = ys.dropLast := by
  subst h; simp

/-- Closed form of `getLines`: the segments of the text, the last one dropped
when it is empty. -/
theorem getLines_eq (T : Text) :
    getLines T =
      if T = [] ∨ T.getLast? = some '\n' then (T.splitOn '\n').dropLast
      else T.splitOn '\n' := by
  have h := foldl_getLinesStep_init T
  have h2 := foldl_getLinesStep_snd T [] []
  unfold getLines
  by_cases hT : T = []
  · subst hT; simp
  · simp only [hT, if_false, false_and, false_or, ne_eq, ite_not] at h2 ⊢
    by_cases hl : T.getLast? = some '\n'
    · rw [if_pos (h2.2 hl), if_pos hl]
      exact dropLast_eq_of_append_singleton _ _ _ h
    · have h3 : ¬ (T.foldl getLinesStep ([], [])).2 = [] := fun hh => hl (h2.1 hh)
      rw [if_neg h3, if_neg hl]
      exact h

/-- The number of segments is one more than the number of newlines. -/
theorem length_splitOn (T : Text) : (T.splitOn '\n').length = T.count '\n' + 1 := by
  induction T with
  | nil => simp
  | cons c cs ih =>
    rw [splitOn_cons]
    by_cases hc : c = '\n'
    · simp [hc, ih]
    · have hc2 : ¬ ('\n' = c) := fun h => hc h.symm
      cases hs : cs.splitOn '\n' with
      | nil => exact absurd hs (splitOn_ne_nil cs)
      | cons s ss =>
        rw [hs] at ih
        simp [hc, List.modifyHead, List.count_cons, hc2] at ih ⊢
        omega

/-- The last segment of a text that ends in a newline is empty. -/
theorem getLast_splitOn (T : Text) (h : T.getLast? = some '\n') :
    (T.splitOn '\n').getLast? = some [] := by
  have h1 := foldl_getLinesStep_init T
  have h2 := (foldl_getLinesStep_snd T [] []).2 (Or.inr h)
  rw [← h1, h2]
  simp


/-! ## Claims on the line index -/

/-- C1: for every text that does not end in a newline, the empty text
included, joining the lines returned by `getLines` with a newline gives the
text back exactly. -/
theorem getLines_intercalate (T : Text) (h : T.getLast? ≠ some '\n') :
    ['\n'].intercalate (getLines T) = T := by
  rw [getLines_eq]
  by_cases hT : T = []
  · subst hT; simp [List.intercalate]
  · rw [if_neg (by simp [hT, h])]
    exact List.intercalate_splitOn T '\n'

theorem getLines_intercalate_witness :
    "ab\n\ncd".toList.getLast? ≠ some '\n' ∧
      ['\n'].intercalate (getLines "ab\n\ncd".toList) = "ab\n\ncd".toList :=
  ⟨by decide, getLines_intercalate "ab\n\ncd".toList (by decide)⟩

/-- C2: for every text that ends in a newline, `getLines` returns the
newline-separated segments of the text without the last one, which is empty;
so it has one entry fewer than there are segments, every other segment is
kept in order, and the number of lines is the number of newlines. -/
theorem getLines_trailing_newline (T : Text) (h : T.getLast? = some '\n') :
    getLines T = (T.splitOn '\n').dropLast ∧
      (T.splitOn '\n').getLast? = some [] ∧
      (getLines T).length + 1 = (T.splitOn '\n').length ∧
      (getLines T).length = T.count '\n' := by
  have h1 : getLines T = (T.splitOn '\n').dropLast := by
    rw [getLines_eq, if_pos (Or.inr h)]
  have h2 := length_splitOn T
  refine ⟨h1, getLast_splitOn T h, ?_, ?_⟩
  · rw [h1, List.length_dropLast, h2]; omega
  · rw [h1, List.length_dropLast, h2]; omega

theorem getLines_trailing_newline_witness :
    "ab\n\ncd\n".toList.getLast? = some '\n' ∧
      getLines "ab\n\ncd\n".toList = ("ab\n\ncd\n".toList.splitOn '\n').dropLast ∧
      ("ab\n\ncd\n".toList.splitOn '\n').getLast? = some [] ∧
      (getLines "ab\n\ncd\n".toList).length + 1 = ("ab\n\ncd\n".toList.splitOn '\n').length ∧
      (getLines "ab\n\ncd\n".toList).length = "ab\n\ncd\n".toList.count '\n' :=
  ⟨by decide, getLines_trailing_newline "ab\n\ncd\n".toList (by decide)⟩

/-! ## Claims on the content size -/

/-- The method `updateContentSize` when both metrics are positive. -/
theorem updateContentSize_of_pos (e : EditorItem β) (hw : e.charWidth > 0)
    (hh : e.charHeight > 0) :
    updateContentSize e =
      { e with
        contentWidth := (maxWidth (getLines e._text) : ℚ) * e.charWidth
        contentHeight := ((getLines e._text).length : ℚ) * e.charHeight
        visibleColumns := truncToInt (fdiv e.width e.charWidth)
        visibleLines := truncToInt (fdiv e.height e.charHeight) } := by
  unfold updateContentSize
  rw [if_pos ⟨hw, hh⟩]

/-- C3: for the empty text `getLines` returns no line at all, and
`updateContentSize` on an item whose text is empty and whose metrics are
positive sets `contentHeight` to 0. -/
theorem empty_text_no_lines (e : EditorItem β) (ht : e._text = [])
    (hw : e.charWidth > 0) (hh : e.charHeight > 0) :
    getLines ([] : Text) = [] ∧ (updateContentSize e).contentHeight = 0 := by
  refine ⟨rfl, ?_⟩
  rw [updateContentSize_of_pos e hw hh, ht]
  simp [getLines]

theorem empty_text_no_lines_witness :
    (EditorItem.fresh 8 10 640 20 ([] : Text))._text = [] ∧
      getLines ([] : Text) = [] ∧
      (updateContentSize (EditorItem.fresh 8 10 640 20 ([] : Text))).contentHeight = 0 :=
  ⟨rfl, empty_text_no_lines (EditorItem.fresh 8 10 640 20 ([] : Text)) rfl
    (by norm_num [EditorItem.fresh]) (by norm_num [EditorItem.fresh])⟩

/-- The running maximum of the loop of `maxWidth`, from any start value. -/
theorem foldl_maxWidth (lines : List Text) (acc : Int) :
    let r := lines.foldl
      (fun m line => if (line.length : Int) > m then (line.length : Int) else m) acc
    acc ≤ r ∧ (∀ line ∈ lines, (line.length : Int) ≤ r) ∧
      (r = acc ∨ ∃ line ∈ lines, (line.length : Int) = r) := by
  induction lines generalizing acc with
  | nil => simp
  | cons l ls ih =>
    simp only [List.foldl_cons]
    obtain ⟨h1, h2, h3⟩ := ih (if (l.length : Int) > acc then (l.length : Int) else acc)
    refine ⟨?_, ?_, ?_⟩
    · refine le_trans ?_ h1
      split <;> omega
    · intro line hl
      rcases List.mem_cons.1 hl with rfl | hl
      · refine le_trans ?_ h1
        split <;> omega
      · exact h2 line hl
    · rcases h3 with h3 | ⟨line, hl, h3⟩
      · by_cases hc : (l.length : Int) > acc
        · right
          exact ⟨l, List.mem_cons_self _ _, by rw [h3, if_pos hc]⟩
        · left
          rw [h3, if_neg hc]
      · right
        exact ⟨line, List.mem_cons_of_mem _ hl, h3⟩

theorem maxWidth_isMax (lines : List Text) :
    ∃ m : Nat, maxWidth lines = (m : Int) ∧ IsMaxLineLength lines m := by
  obtain ⟨h1, h2, h3⟩ := foldl_maxWidth lines 0
  refine ⟨(maxWidth lines).toNat, (Int.toNat_of_nonneg h1).symm, ?_, ?_, ?_⟩
  · intro line hl
    have := h2 line hl
    unfold maxWidth
    omega
  · intro hnil
    subst hnil
    rfl
  · intro hne
    rcases h3 with h3 | ⟨line, hl, h3⟩
    · cases lines with
      | nil => exact absurd rfl hne
      | cons l ls =>
        refine ⟨l, List.mem_cons_self _ _, ?_⟩
        have := h2 l (List.mem_cons_self _ _)
        unfold maxWidth
        omega
    · refine ⟨line, hl, ?_⟩
      unfold maxWidth
      omega

/-- The method `setText` on an unlocked item and a different text. -/
theorem setText_of_ne (e : EditorItem β) (text : Text) (hm : e.mutex = .unlocked)
    (hne : e._text ≠ text) :
    setText e text = .ok
      { updateContentSize { e with mutex := .writeLocked, _text := text } with
        cacheValid := false
        signals := (updateContentSize { e with mutex := .writeLocked, _text := text }).signals
          ++ [Signal.textChanged text]
        mutex := .unlocked } := by
  have hmx : ∀ x : EditorItem β, (updateContentSize x).mutex = x.mutex := by
    intro x; unfold updateContentSize; split <;> rfl
  simp only [setText, hm, RWMutex.Lock, bind, Except.bind, ne_eq, hne, not_false_eq_true,
    if_true, hmx, RWMutex.Unlock, pure, Except.pure]

/-- C4: with positive metrics, after `updateContentSize`, and after a
`setText` that changes the text, `contentHeight` is the number of lines of
`getLines` times `charHeight` and `contentWidth` is the largest character
count of any line (0 when there are no lines) times `charWidth`. -/
theorem content_size (e : EditorItem β) (text : Text) (hw : e.charWidth > 0)
    (hh : e.charHeight > 0) :
    ((updateContentSize e).contentHeight = ((getLines e._text).length : ℚ) * e.charHeight ∧
      ∃ m : Nat, IsMaxLineLength (getLines e._text) m ∧
        (updateContentSize e).contentWidth = (m : ℚ) * e.charWidth) ∧
    (e.mutex = .unlocked → e._text ≠ text →
      ∃ e2, setText e text = .ok e2 ∧ e2._text = text ∧
        e2.charWidth = e.charWidth ∧ e2.charHeight = e.charHeight ∧
        e2.contentHeight = ((getLines text).length : ℚ) * e.charHeight ∧
        ∃ m : Nat, IsMaxLineLength (getLines text) m ∧
          e2.contentWidth = (m : ℚ) * e.charWidth) := by
  constructor
  · rw [updateContentSize_of_pos e hw hh]
    refine ⟨rfl, ?_⟩
    obtain ⟨m, hm1, hm2⟩ := maxWidth_isMax (getLines e._text)
    exact ⟨m, hm2, by simp [hm1]⟩
  · intro hm hne
    refine ⟨_, setText_of_ne e text hm hne, ?_⟩
    rw [updateContentSize_of_pos { e with mutex := .writeLocked, _text := text } hw hh]
    refine ⟨rfl, rfl, rfl, rfl, ?_⟩
    obtain ⟨m, hm1, hm2⟩ := maxWidth_isMax (getLines text)
    exact ⟨m, hm2, by simp [hm1]⟩

theorem content_size_witness :
    ((updateContentSize (EditorItem.fresh 8 10 640 20 ([] : Text))).contentHeight =
        ((getLines (EditorItem.fresh 8 10 640 20 ([] : Text))._text).length : ℚ) * 10) ∧
      ∃ e2, setText (EditorItem.fresh 8 10 640 20 ([] : Text)) "abc\ndef\nghi".toList = .ok e2 ∧
        e2.contentHeight = 30 ∧ e2.contentWidth = 24 := by
  obtain ⟨h1, h2⟩ := content_size (EditorItem.fresh 8 10 640 20 ([] : Text))
    "abc\ndef\nghi".toList (by norm_num [EditorItem.fresh]) (by norm_num [EditorItem.fresh])
  refine ⟨h1.1, ?_⟩
  obtain ⟨e2, he, _, _, _, hH, m, hm, hW⟩ := h2 rfl (by decide)
  refine ⟨e2, he, ?_, ?_⟩
  · rw [hH]
    have : (getLines "abc\ndef\nghi".toList).length = 3 := by decide
    rw [this]; norm_num [EditorItem.fresh]
  · have h3 : m = 3 := by
      obtain ⟨a, _, c⟩ := hm
      have hl : getLines "abc\ndef\nghi".toList = ["abc".toList, "def".toList, "ghi".toList] := by
        decide
      rw [hl] at a c
      obtain ⟨line, hmem, hlen⟩ := c (by simp)
      simp at hmem
      rcases hmem with rfl | rfl | rfl <;> simpa using hlen.symm
    rw [hW, h3]; norm_num [EditorItem.fresh]

/-! ## Claims on the selection bounds -/

theorem updateSelectionInfo_fields (e : EditorItem β) :
    (updateSelectionInfo e)._selectionStart = e._selectionStart ∧
      (updateSelectionInfo e)._selectionEnd = e._selectionEnd ∧
      (updateSelectionInfo e).mutex = e.mutex := by
  unfold updateSelectionInfo
  split <;> exact ⟨rfl, rfl, rfl⟩

/-- The method `SetSelection` on an unlocked item returns, with the bounds
stored as they were passed. -/
theorem SetSelection_ok (e : EditorItem β) (a b : Int) (hm : e.mutex = .unlocked) :
    ∃ e2, SetSelection e a b = .ok e2 ∧ e2._selectionStart = a ∧ e2._selectionEnd = b ∧
      e2.mutex = .unlocked := by
  by_cases hc : e._selectionStart ≠ a ∨ e._selectionEnd ≠ b
  · obtain ⟨h1, h2, h3⟩ := updateSelectionInfo_fields
      { e with mutex := .writeLocked, _selectionStart := a, _selectionEnd := b }
    refine ⟨{ updateSelectionInfo
        { e with mutex := .writeLocked, _selectionStart := a, _selectionEnd := b } with
        mutex := .unlocked }, ?_, h1, h2, rfl⟩
    simp only [SetSelection, hm, RWMutex.Lock, bind, Except.bind, hc, if_true, h3,
      RWMutex.Unlock, pure, Except.pure]
  · refine ⟨{ e with mutex := .unlocked }, ?_, ?_, ?_, rfl⟩
    · simp only [SetSelection, hm, RWMutex.Lock, bind, Except.bind, hc, if_false,
        RWMutex.Unlock, pure, Except.pure]
    · by_contra h; exact hc (Or.inl h)
    · by_contra h; exact hc (Or.inr h)

theorem SelectionStart_ok (e : EditorItem β) (hm : e.mutex = .unlocked) :
    ∃ e2, SelectionStart e = .ok (e._selectionStart, e2) :=
  ⟨{ e with mutex := .unlocked }, by
    simp only [SelectionStart, hm, RWMutex.RLock, RWMutex.RUnlock, bind, Except.bind, pure,
      Except.pure]⟩

theorem SelectionEnd_ok (e : EditorItem β) (hm : e.mutex = .unlocked) :
    ∃ e2, SelectionEnd e = .ok (e._selectionEnd, e2) :=
  ⟨{ e with mutex := .unlocked }, by
    simp only [SelectionEnd, hm, RWMutex.RLock, RWMutex.RUnlock, bind, Except.bind, pure,
      Except.pure]⟩

/-- C5, the claim fails: after `SetSelection(5, 2)` on a fresh item the
stored start is 5 and the stored end is 2, so the start is neither
`min 5 2` nor at most the end. -/
theorem SetSelection_not_normalized :
    ∃ e2 e3 e4, SetSelection (EditorItem.fresh 8 10 640 20 ([] : Text)) 5 2 = .ok e2 ∧
      SelectionStart e2 = .ok (5, e3) ∧ SelectionEnd e2 = .ok (2, e4) ∧
      (5 : Int) ≠ min 5 2 ∧ ¬ (e2._selectionStart ≤ e2._selectionEnd) := by
  obtain ⟨e2, h, hs, he, hm⟩ :=
    SetSelection_ok (EditorItem.fresh 8 10 640 20 ([] : Text)) 5 2 rfl
  obtain ⟨e3, h3⟩ := SelectionStart_ok e2 hm
  obtain ⟨e4, h4⟩ := SelectionEnd_ok e2 hm
  rw [hs] at h3
  rw [he] at h4
  exact ⟨e2, e3, e4, h, h3, h4, by decide, by rw [hs, he]; decide⟩

/-- C5 as amended: on an unlocked item `SetSelection(a, b)` returns and stores
the bounds exactly as passed, `SelectionStart()` then reads `a` and
`SelectionEnd()` reads `b`; the stored start is at most the stored end
exactly when `a ≤ b`. -/
theorem SetSelection_stores_bounds (e : EditorItem β) (a b : Int)
    (hm : e.mutex = .unlocked) :
    ∃ e2 e3 e4, SetSelection e a b = .ok e2 ∧
      SelectionStart e2 = .ok (a, e3) ∧ SelectionEnd e2 = .ok (b, e4) ∧
      (e2._selectionStart ≤ e2._selectionEnd ↔ a ≤ b) := by
  obtain ⟨e2, h, hs, he, hm2⟩ := SetSelection_ok e a b hm
  obtain ⟨e3, h3⟩ := SelectionStart_ok e2 hm2
  obtain ⟨e4, h4⟩ := SelectionEnd_ok e2 hm2
  rw [hs] at h3
  rw [he] at h4
  exact ⟨e2, e3, e4, h, h3, h4, by rw [hs, he]⟩

theorem SetSelection_stores_bounds_witness :
    ∃ e2 e3 e4, SetSelection (EditorItem.fresh 8 10 640 20 ([] : Text)) 5 2 = .ok e2 ∧
      SelectionStart e2 = .ok (5, e3) ∧ SelectionEnd e2 = .ok (2, e4) ∧
      (e2._selectionStart ≤ e2._selectionEnd ↔ (5 : Int) ≤ 2) :=
  SetSelection_stores_bounds (EditorItem.fresh 8 10 640 20 ([] : Text)) 5 2 rfl

/-! ## Claims on the scroll position -/

theorem updateContentSize_scrollPosition (e : EditorItem β) :
    (updateContentSize e).scrollPosition = e.scrollPosition := by
  unfold updateContentSize
  split <;> rfl

theorem updateContentSize_mutex (e : EditorItem β) :
    (updateContentSize e).mutex = e.mutex := by
  unfold updateContentSize
  split <;> rfl

/-- The method `setText` on an unlocked item returns and keeps the scroll
position. -/
theorem setText_scrollPosition (e : EditorItem β) (text : Text) (hm : e.mutex = .unlocked) :
    ∃ e2, setText e text = .ok e2 ∧ e2.scrollPosition = e.scrollPosition := by
  by_cases hc : e._text = text
  · refine ⟨{ e with mutex := .unlocked }, ?_, rfl⟩
    simp only [setText, hm, RWMutex.Lock, bind, Except.bind, ne_eq, hc, not_true_eq_false,
      if_false, RWMutex.Unlock, pure, Except.pure]
  · refine ⟨_, setText_of_ne e text hm hc, ?_⟩
    exact updateContentSize_scrollPosition _

theorem getLines_abc : getLines "abc\ndef\nghi".toList =
    ["abc".toList, "def".toList, "ghi".toList] := by decide

theorem scenario_abc_contentHeight :
    (scenario "abc\ndef\nghi".toList 10 20).contentHeight = 30 := by
  unfold scenario
  rw [updateContentSize_of_pos _ (by norm_num [EditorItem.fresh])
    (by norm_num [EditorItem.fresh])]
  show (((getLines "abc\ndef\nghi".toList).length : ℕ) : ℚ) * 10 = 30
  rw [getLines_abc]
  norm_num

theorem scenario_height (text : Text) (ch h : ℚ) : (scenario text ch h).height = h := by
  unfold scenario updateContentSize
  split <;> rfl

/-- C6, the claim fails: with the text of three lines, `charHeight` 10 and a
viewport 20 high, `UpdateScrollPosition(15)` leaves the scroll position at
15, above `max(0, contentHeight - viewportHeight) = 10`. -/
theorem UpdateScrollPosition_not_clamped :
    (UpdateScrollPosition (scenario "abc\ndef\nghi".toList 10 20) 15).scrollPosition = 15 ∧
      max 0 ((UpdateScrollPosition (scenario "abc\ndef\nghi".toList 10 20) 15).contentHeight -
        (UpdateScrollPosition (scenario "abc\ndef\nghi".toList 10 20) 15).height) = 10 ∧
      ¬ ((UpdateScrollPosition (scenario "abc\ndef\nghi".toList 10 20) 15).scrollPosition ≤
        max 0 ((UpdateScrollPosition (scenario "abc\ndef\nghi".toList 10 20) 15).contentHeight -
          (UpdateScrollPosition (scenario "abc\ndef\nghi".toList 10 20) 15).height)) := by
  have h1 : (UpdateScrollPosition (scenario "abc\ndef\nghi".toList 10 20) 15).contentHeight
      = 30 := scenario_abc_contentHeight
  have h2 : (UpdateScrollPosition (scenario "abc\ndef\nghi".toList 10 20) 15).height = 20 :=
    scenario_height _ _ _
  have h3 : (UpdateScrollPosition (scenario "abc\ndef\nghi".toList 10 20) 15).scrollPosition
      = 15 := rfl
  rw [h1, h2, h3]
  norm_num

/-- C6 as amended: `UpdateScrollPosition(y)` stores `y` as it is, a geometry
change and a text change on an unlocked item leave the scroll position as it
was, and none of them clamps; so after `UpdateScrollPosition(y)` the scroll
position lies in `[0, max(0, contentHeight - viewportHeight)]` exactly when
`y` does. -/
theorem scrollPosition_stored (e : EditorItem β) (y newWidth newHeight : ℚ) (text : Text)
    (hm : e.mutex = .unlocked) :
    (UpdateScrollPosition e y).scrollPosition = y ∧
      (UpdateScrollPosition e y).currentScrollY = y ∧
      (geometryChanged e newWidth newHeight).scrollPosition = e.scrollPosition ∧
      (∃ e2, setText e text = .ok e2 ∧ e2.scrollPosition = e.scrollPosition) ∧
      ((0 ≤ (UpdateScrollPosition e y).scrollPosition ∧
          (UpdateScrollPosition e y).scrollPosition ≤
            max 0 ((UpdateScrollPosition e y).contentHeight - (UpdateScrollPosition e y).height))
        ↔ (0 ≤ y ∧ y ≤ max 0 (e.contentHeight - e.height))) := by
  refine ⟨rfl, rfl, ?_, setText_scrollPosition e text hm, Iff.rfl⟩
  exact updateContentSize_scrollPosition _

theorem scrollPosition_stored_witness :
    (UpdateScrollPosition (scenario "abc\ndef\nghi".toList 10 20) 15).scrollPosition = 15 ∧
      (UpdateScrollPosition (scenario "abc\ndef\nghi".toList 10 20) 15).currentScrollY = 15 ∧
      (geometryChanged (scenario "abc\ndef\nghi".toList 10 20) 640 40).scrollPosition =
        (scenario "abc\ndef\nghi".toList 10 20).scrollPosition ∧
      (∃ e2, setText (scenario "abc\ndef\nghi".toList 10 20) "x".toList = .ok e2 ∧
        e2.scrollPosition = (scenario "abc\ndef\nghi".toList 10 20).scrollPosition) ∧
      ((0 ≤ (UpdateScrollPosition (scenario "abc\ndef\nghi".toList 10 20) 15).scrollPosition ∧
          (UpdateScrollPosition (scenario "abc\ndef\nghi".toList 10 20) 15).scrollPosition ≤
            max 0 ((UpdateScrollPosition (scenario "abc\ndef\nghi".toList 10 20) 15).contentHeight
              - (UpdateScrollPosition (scenario "abc\ndef\nghi".toList 10 20) 15).height))
        ↔ ((0 : ℚ) ≤ 15 ∧ (15 : ℚ) ≤ max 0 ((scenario "abc\ndef\nghi".toList 10 20).contentHeight
              - (scenario "abc\ndef\nghi".toList 10 20).height))) :=
  scrollPosition_stored (scenario "abc\ndef\nghi".toList 10 20) 15 640 40 "x".toList
    (by rw [scenario, updateContentSize_mutex]; rfl)

/-! ## Claims on the selection lines -/

/-- C7, the code departs from the claim: in the text of lines `ab`, `cd`,
`ef` with the selection from offset 4 to offset 5, both offsets lie on line 1
and not on line 2 (0-based), yet `updateSelectionInfo` derives start line 2
and end line 2 and announces them 1-based as `selectionChanged(3, 3)`. -/
theorem updateSelectionInfo_start_line_off :
    (updateSelectionInfo
        { scenario "ab\ncd\nef".toList 10 20 with
          _selectionStart := 4, _selectionEnd := 5 }).signals
        = [Signal.selectionChanged 3 3] ∧
      (updateSelectionInfo
        { scenario "ab\ncd\nef".toList 10 20 with
          _selectionStart := 4, _selectionEnd := 5 }).selectionLines = 1 ∧
      liesOnLine (getLines "ab\ncd\nef".toList) 4 1 ∧
      ¬ liesOnLine (getLines "ab\ncd\nef".toList) 4 2 ∧
      liesOnLine (getLines "ab\ncd\nef".toList) 5 1 ∧
      ¬ liesOnLine (getLines "ab\ncd\nef".toList) 5 2 := by
  refine ⟨by decide, by decide, by decide, by decide, by decide, by decide⟩

/-! ## Claims on the mutex -/

/-- The method `updateTextFromBackend` called with the write lock held and a
non-nil buffer waits forever on its `RLock`. -/
theorem updateTextFromBackend_blocked (ops : BackendOps β) (e : EditorItem β)
    (hb : e.buffer = true) (hm : e.mutex = .writeLocked) :
    updateTextFromBackend ops e = .error .blocked := by
  simp only [updateTextFromBackend, hb, if_true, hm, RWMutex.RLock, bind, Except.bind]

theorem editWith_blocked (ops : BackendOps β) (edit : β → β) (e : EditorItem β)
    (hv : e.view = true) (hb : e.buffer = true) :
    editWith ops edit e = .error .blocked := by
  unfold editWith
  cases hm : e.mutex with
  | unlocked =>
    have h := updateTextFromBackend_blocked ops
      { e with mutex := .writeLocked, backend := edit e.backend } hb rfl
    simp only [RWMutex.Lock, bind, Except.bind]
    rw [if_pos hv]
    simp only [bind, Except.bind, h]
  | writeLocked => simp only [RWMutex.Lock, bind, Except.bind]
  | readLocked n => simp only [RWMutex.Lock, bind, Except.bind]

/-- C8, the code departs from the claim: on every item with a non-nil view
and buffer, whatever the backend does, `InsertText`, `Backspace` and
`DeleteChar` never return: each waits forever for `e.mutex`, and on an
unlocked item the wait is the `RLock` of `updateTextFromBackend`, made while
the caller itself holds the write lock. -/
theorem edit_operations_block (ops : BackendOps β) (e : EditorItem β) (text : Text)
    (hv : e.view = true) (hb : e.buffer = true) :
    InsertText ops e text = .error .blocked ∧ Backspace ops e = .error .blocked ∧
      DeleteChar ops e = .error .blocked ∧
      (e.mutex = .unlocked →
        updateTextFromBackend ops
          { e with mutex := .writeLocked, backend := ops.insert e.backend text }
          = .error .blocked) :=
  ⟨editWith_blocked ops _ e hv hb, editWith_blocked ops _ e hv hb,
    editWith_blocked ops _ e hv hb, fun _ => updateTextFromBackend_blocked ops _ hb rfl⟩

theorem edit_operations_block_witness :
    InsertText toyOps (EditorItem.fresh 8 10 640 20 "ab".toList) "x".toList = .error .blocked ∧
      Backspace toyOps (EditorItem.fresh 8 10 640 20 "ab".toList) = .error .blocked ∧
      DeleteChar toyOps (EditorItem.fresh 8 10 640 20 "ab".toList) = .error .blocked :=
  ⟨(edit_operations_block toyOps (EditorItem.fresh 8 10 640 20 "ab".toList) "x".toList
      rfl rfl).1,
    (edit_operations_block toyOps (EditorItem.fresh 8 10 640 20 "ab".toList) "x".toList
      rfl rfl).2.1,
    (edit_operations_block toyOps (EditorItem.fresh 8 10 640 20 "ab".toList) "x".toList
      rfl rfl).2.2.1⟩

/-! ## Lemmas on the float64 arithmetic -/

theorem wrap64_of_fits (x : Int) (h1 : -2 ^ 63 ≤ x) (h2 : x < 2 ^ 63) : wrap64 x = x := by
  unfold wrap64
  omega

theorem roundEven_eq_of_near (x : ℚ) (M : Int) (h1 : (M : ℚ) - 1 / 2 < x)
    (h2 : x < (M : ℚ) + 1 / 2) : roundEven x = M := by
  have hf1 : ((⌊x⌋ : Int) : ℚ) ≤ x := Int.floor_le x
  have hf2 : x < ((⌊x⌋ : Int) : ℚ) + 1 := Int.lt_floor_add_one x
  have hle : ⌊x⌋ ≤ M := by
    have : ((⌊x⌋ : Int) : ℚ) < (M : ℚ) + 1 := by linarith
    have : ⌊x⌋ < M + 1 := by exact_mod_cast this
    omega
  have hge : M - 1 ≤ ⌊x⌋ := by
    have : (M : ℚ) - 1 < ((⌊x⌋ : Int) : ℚ) + 1 := by linarith
    have : M - 1 < ⌊x⌋ + 1 := by exact_mod_cast this
    omega
  unfold roundEven
  rcases (by omega : ⌊x⌋ = M ∨ ⌊x⌋ = M - 1) with h | h
  · rw [h]
    rw [if_pos (by linarith)]
  · rw [h]
    have hc : ((M - 1 : Int) : ℚ) = (M : ℚ) - 1 := by push_cast; ring
    rw [if_neg (by rw [hc]; linarith), if_pos (by rw [hc]; linarith)]
    omega

theorem roundEven_intCast (M : Int) : roundEven (M : ℚ) = M :=
  roundEven_eq_of_near _ M (by linarith) (by linarith)

theorem roundEven_nonneg (x : ℚ) (h : 0 ≤ x) : 0 ≤ roundEven x := by
  have hf : 0 ≤ ⌊x⌋ := Int.floor_nonneg.2 h
  unfold roundEven
  split
  · exact hf
  · split
    · omega
    · split <;> omega

theorem ulpExp_eq (q : ℚ) (e : Int) (h1 : (2 : ℚ) ^ e ≤ |q|) (h2 : |q| < (2 : ℚ) ^ (e + 1))
    (h3 : -1022 ≤ e) : ulpExp q = e - 52 := by
  have hpos : 0 < |q| := lt_of_lt_of_le (by positivity) h1
  have ha : e ≤ Int.log 2 |q| :=
    (Int.zpow_le_iff_le_log (by norm_num) hpos).1 (by exact_mod_cast h1)
  have hb : Int.log 2 |q| < e + 1 :=
    (Int.lt_zpow_iff_log_lt (by norm_num) hpos).1 (by exact_mod_cast h2)
  unfold ulpExp
  omega

theorem roundF64_eq (q : ℚ) (e M : Int) (h1 : (2 : ℚ) ^ e ≤ |q|) (h2 : |q| < (2 : ℚ) ^ (e + 1))
    (h3 : -1022 ≤ e) (hM1 : (M : ℚ) - 1 / 2 < q / 2 ^ (e - 52))
    (hM2 : q / 2 ^ (e - 52) < (M : ℚ) + 1 / 2) :
    roundF64 q = (M : ℚ) * 2 ^ (e - 52) := by
  unfold roundF64
  rw [ulpExp_eq q e h1 h2 h3, roundEven_eq_of_near _ M hM1 hM2]

theorem roundF64_nonneg (q : ℚ) (h : 0 ≤ q) : 0 ≤ roundF64 q := by
  unfold roundF64
  have h2 : (0 : ℚ) < 2 ^ ulpExp q := by positivity
  have h3 : 0 ≤ roundEven (q / 2 ^ ulpExp q) := roundEven_nonneg _ (div_nonneg h h2.le)
  have h4 : (0 : ℚ) ≤ (roundEven (q / 2 ^ ulpExp q) : ℚ) := by exact_mod_cast h3
  exact mul_nonneg h4 h2.le

/-- A rational that is a whole number of units in the last place is not
changed by the rounding. -/
theorem roundF64_of_exact (q : ℚ) (M : Int) (h : q / 2 ^ ulpExp q = (M : ℚ)) :
    roundF64 q = q := by
  unfold roundF64
  rw [h, roundEven_intCast, ← h]
  have h2 : (2 : ℚ) ^ ulpExp q ≠ 0 := by positivity
  field_simp

theorem roundF64_intCast (k : Int) (hk : |k| < 2 ^ 53) : roundF64 (k : ℚ) = (k : ℚ) := by
  by_cases h0 : k = 0
  · subst h0
    apply roundF64_of_exact _ 0
    simp
  · have hpos : (0 : ℚ) < |(k : ℚ)| := abs_pos.2 (by exact_mod_cast h0)
    have h1 : (1 : ℚ) ≤ |(k : ℚ)| := by
      have : (1 : Int) ≤ |k| := Int.one_le_abs h0
      exact_mod_cast this
    have hlo : 0 ≤ Int.log 2 |(k : ℚ)| :=
      (Int.zpow_le_iff_le_log (by norm_num) hpos).1 (by simpa using h1)
    have hhi : Int.log 2 |(k : ℚ)| < 53 := by
      apply (Int.lt_zpow_iff_log_lt (by norm_num) hpos).1
      have hk2 : |(k : ℚ)| < (2 : ℚ) ^ (53 : ℕ) := by exact_mod_cast hk
      norm_num at hk2 ⊢
      exact hk2
    have hu : ulpExp (k : ℚ) = -((52 - Int.log 2 |(k : ℚ)|).toNat : Int) := by
      unfold ulpExp
      omega
    apply roundF64_of_exact _ (k * 2 ^ (52 - Int.log 2 |(k : ℚ)|).toNat)
    rw [hu, zpow_neg, zpow_natCast]
    push_cast
    field_simp

theorem truncate_of_nonneg (q : ℚ) (h : 0 ≤ q) : truncate q = ⌊q⌋ := by
  unfold truncate
  rw [Rat.floor_def]
  exact Int.tdiv_eq_ediv (Rat.num_nonneg.2 h) (Int.natCast_nonneg _)

theorem truncate_of_neg (q : ℚ) (h : q < 0) : truncate q = -⌊-q⌋ := by
  unfold truncate
  have hn : 0 ≤ -q.num := by
    have := Rat.num_neg.2 h
    omega
  have h2 : (-q.num).tdiv (q.den : Int) = (-q.num) / (q.den : Int) :=
    Int.tdiv_eq_ediv hn (Int.natCast_nonneg _)
  rw [Int.neg_tdiv] at h2
  rw [Rat.floor_def, Rat.neg_num, Rat.neg_den]
  omega

theorem truncate_bounds (q : ℚ) (h1 : -2 ^ 63 ≤ q) (h2 : q < 2 ^ 63) :
    -2 ^ 63 ≤ truncate q ∧ truncate q < 2 ^ 63 := by
  rcases le_or_lt 0 q with h | h
  · rw [truncate_of_nonneg q h]
    have ha : 0 ≤ ⌊q⌋ := Int.floor_nonneg.2 h
    have hb : ⌊q⌋ < 2 ^ 63 := Int.floor_lt.2 (by exact_mod_cast h2)
    omega
  · rw [truncate_of_neg q h]
    have ha : 0 ≤ ⌊-q⌋ := Int.floor_nonneg.2 (by linarith)
    have hb : ((⌊-q⌋ : Int) : ℚ) ≤ 2 ^ 63 := le_trans (Int.floor_le _) (by linarith)
    have hc : ⌊-q⌋ ≤ 2 ^ 63 := by exact_mod_cast hb
    omega

theorem truncToInt_of_fits (q : ℚ) (h1 : -2 ^ 63 ≤ q) (h2 : q < 2 ^ 63) :
    truncToInt q = truncate q := by
  unfold truncToInt
  rw [if_pos (truncate_bounds q h1 h2)]

theorem truncate_intCast (n : Int) : truncate (n : ℚ) = n := by
  unfold truncate
  simp

theorem truncToInt_intCast (n : Int) (h1 : -2 ^ 63 ≤ n) (h2 : n < 2 ^ 63) :
    truncToInt (n : ℚ) = n := by
  unfold truncToInt
  rw [truncate_intCast, if_pos ⟨h1, h2⟩]

theorem truncate_of_small (q : ℚ) (h1 : -1 < q) (h2 : q < 0) : truncate q = 0 := by
  rw [truncate_of_neg q h2]
  have h3 : ⌊-q⌋ = 0 := Int.floor_eq_iff.2 ⟨by simp; linarith, by simp; linarith⟩
  rw [h3]
  rfl

/-- The clamped truncation is the clamped floor. -/
theorem max_truncate (q : ℚ) : max 0 (truncate q) = max 0 ⌊q⌋ := by
  rcases le_or_lt 0 q with h | h
  · rw [truncate_of_nonneg q h]
  · have h1 : truncate q ≤ 0 := by
      rw [truncate_of_neg q h]
      have : 0 ≤ ⌊-q⌋ := Int.floor_nonneg.2 (by linarith)
      omega
    have h2 : ⌊q⌋ < 0 := Int.floor_lt.2 (by exact_mod_cast h)
    omega

/-- A quotient that is a small whole number is computed exactly. -/
theorem fdiv_eq_intCast (a b : ℚ) (k : Int) (h : a / b = (k : ℚ)) (hk : |k| < 2 ^ 53) :
    fdiv a b = (k : ℚ) := by
  unfold fdiv
  rw [h, roundF64_intCast k hk]

theorem fdiv_nonneg (a b : ℚ) (ha : 0 ≤ a) (hb : 0 < b) : 0 ≤ fdiv a b :=
  roundF64_nonneg _ (div_nonneg ha hb.le)

/-- The constant 16.8 denotes `float16_8`, which is a `float64`. -/
theorem float16_8_eq : roundF64 (168 / 10) = float16_8 ∧ roundF64 float16_8 = float16_8 := by
  unfold float16_8
  constructor
  · rw [roundF64_eq _ 4 4728779608739021 (by norm_num [abs_of_pos])
      (by norm_num [abs_of_pos]) (by norm_num) (by norm_num) (by norm_num)]
    norm_num
  · rw [roundF64_eq _ 4 4728779608739021 (by norm_num [abs_of_pos])
      (by norm_num [abs_of_pos]) (by norm_num) (by norm_num) (by norm_num)]
    norm_num

/-- The `float64` quotient 84 / 16.8 is 5, though the exact quotient of the
two `float64` operands is below 5. -/
theorem fdiv_84_float16_8 :
    fdiv 84 float16_8 = 5 ∧ (84 : ℚ) / float16_8 < 5 ∧ ⌊(84 : ℚ) / float16_8⌋ = 4 := by
  unfold fdiv float16_8
  refine ⟨?_, by norm_num, Int.floor_eq_iff.2 ⟨by norm_num, by norm_num⟩⟩
  rw [roundF64_eq _ 2 5629499534213120 (by norm_num [abs_of_pos])
    (by norm_num [abs_of_pos]) (by norm_num) (by norm_num) (by norm_num)]
  norm_num

/-! ## Claims on the visible range -/

/-- The loop bounds of `renderTextContent` in closed form. -/
theorem visibleRange_eq (e : EditorItem β) (n : Int) :
    visibleRange e n =
      (max 0 (truncToInt (fdiv e.scrollPosition e.charHeight)),
        min n (wrap64 (truncToInt (fdiv e.scrollPosition e.charHeight) + e.visibleLines + 1))) := by
  unfold visibleRange
  simp only [Prod.mk.injEq]
  constructor
  · split <;> omega
  · split <;> omega

theorem scenario_fields (text : Text) (ch h : ℚ) :
    (scenario text ch h)._text = text ∧ (scenario text ch h).charWidth = 8 ∧
      (scenario text ch h).charHeight = ch ∧ (scenario text ch h).scrollPosition = 0 := by
  unfold scenario updateContentSize
  split <;> exact ⟨rfl, rfl, rfl, rfl⟩

theorem scenario_visibleLines (text : Text) (ch h : ℚ) (hc : ch > 0) :
    (scenario text ch h).visibleLines = truncToInt (fdiv h ch) := by
  unfold scenario
  rw [updateContentSize_of_pos _ (by norm_num [EditorItem.fresh]) hc]
  rfl

theorem scenario_abc_visibleLines : (scenario "abc\ndef\nghi".toList 10 20).visibleLines = 2 := by
  rw [scenario_visibleLines _ _ _ (by norm_num),
    fdiv_eq_intCast 20 10 2 (by norm_num) (by decide)]
  exact truncToInt_intCast 2 (by decide) (by decide)

/-- With `charHeight` 16.8 and the scroll position at 84 the loop starts at
line 5, the `float64` quotient being 5. -/
theorem visibleRange_rounded_quotient :
    (visibleRange { pagingExample with scrollPosition := 84 } 100).1 = 5 := by
  rw [visibleRange_eq]
  show max 0 (truncToInt (fdiv 84 float16_8)) = 5
  rw [fdiv_84_float16_8.1]
  have h : truncToInt (5 : ℚ) = 5 := truncToInt_intCast 5 (by decide) (by decide)
  rw [h]
  rfl

/-- C9, the claim fails: with the text of three lines, `charHeight` 10,
two visible lines and the scroll position at -30, the first line is clamped
to 0 but the last line is 0, computed from the quotient -3 before the clamp,
and not `min(3, 0 + 2 + 1) = 3`. -/
theorem visibleRange_negative_scroll :
    (visibleRange { scenario "abc\ndef\nghi".toList 10 20 with scrollPosition := -30 } 3).1 = 0 ∧
      (visibleRange { scenario "abc\ndef\nghi".toList 10 20 with scrollPosition := -30 } 3).2 = 0 ∧
      (scenario "abc\ndef\nghi".toList 10 20).visibleLines = 2 ∧
      (visibleRange { scenario "abc\ndef\nghi".toList 10 20 with scrollPosition := -30 } 3).2 ≠
        min 3 ((visibleRange
            { scenario "abc\ndef\nghi".toList 10 20 with scrollPosition := -30 } 3).1 +
          (scenario "abc\ndef\nghi".toList 10 20).visibleLines + 1) := by
  have hq : truncToInt (fdiv (-30 : ℚ) (scenario "abc\ndef\nghi".toList 10 20).charHeight)
      = -3 := by
    rw [(scenario_fields _ _ _).2.2.1, fdiv_eq_intCast (-30) 10 (-3) (by norm_num) (by decide)]
    exact truncToInt_intCast (-3) (by decide) (by decide)
  have hv := scenario_abc_visibleLines
  have hr : visibleRange
      { scenario "abc\ndef\nghi".toList 10 20 with scrollPosition := -30 } 3 = (0, 0) := by
    rw [visibleRange_eq]
    show (max 0 (truncToInt (fdiv (-30 : ℚ) (scenario "abc\ndef\nghi".toList 10 20).charHeight)),
      min 3 (wrap64 (truncToInt
        (fdiv (-30 : ℚ) (scenario "abc\ndef\nghi".toList 10 20).charHeight)
        + (scenario "abc\ndef\nghi".toList 10 20).visibleLines + 1))) = (0, 0)
    rw [hq, hv]
    decide
  rw [hr, hv]
  exact ⟨rfl, rfl, rfl, by decide⟩

/-- C9 as amended: let `q` be the `float64` quotient
`scrollPosition / charHeight` as the code computes it, with `charHeight > 0`,
and let `q` lie in the range of a 64-bit `int`. Then the first line of the
loop is `max(0, floor(q))`. If moreover `t + visibleLines + 1` fits a 64-bit
`int`, where `t = int(q)` is `q` truncated toward zero and not yet clamped,
the last line is `min(n, t + visibleLines + 1)`; it is
`min(n, firstLine + visibleLines + 1)` with the clamped first line whenever
`q > -1`, in particular whenever `scrollPosition ≥ 0`. -/
theorem visibleRange_bounds (e : EditorItem β) (n : Int) (hh : e.charHeight > 0)
    (hq1 : -2 ^ 63 ≤ fdiv e.scrollPosition e.charHeight)
    (hq2 : fdiv e.scrollPosition e.charHeight < 2 ^ 63) :
    (visibleRange e n).1 = max 0 ⌊fdiv e.scrollPosition e.charHeight⌋ ∧
      (-2 ^ 63 ≤ truncate (fdiv e.scrollPosition e.charHeight) + e.visibleLines + 1 →
        truncate (fdiv e.scrollPosition e.charHeight) + e.visibleLines + 1 < 2 ^ 63 →
        (visibleRange e n).2 =
            min n (truncate (fdiv e.scrollPosition e.charHeight) + e.visibleLines + 1) ∧
          (-1 < fdiv e.scrollPosition e.charHeight →
            (visibleRange e n).2 = min n ((visibleRange e n).1 + e.visibleLines + 1)) ∧
          (0 ≤ e.scrollPosition →
            (visibleRange e n).2 = min n ((visibleRange e n).1 + e.visibleLines + 1))) := by
  rw [visibleRange_eq, truncToInt_of_fits _ hq1 hq2]
  refine ⟨max_truncate _, ?_⟩
  intro hlo hhi
  rw [wrap64_of_fits _ hlo hhi]
  have hsmall : -1 < fdiv e.scrollPosition e.charHeight →
      min n (truncate (fdiv e.scrollPosition e.charHeight) + e.visibleLines + 1) =
        min n (max 0 (truncate (fdiv e.scrollPosition e.charHeight)) + e.visibleLines + 1) := by
    intro hq
    have ht : 0 ≤ truncate (fdiv e.scrollPosition e.charHeight) := by
      rcases le_or_lt 0 (fdiv e.scrollPosition e.charHeight) with h | h
      · rw [truncate_of_nonneg _ h]
        exact Int.floor_nonneg.2 h
      · rw [truncate_of_small _ hq h]
    rw [max_eq_right ht]
  refine ⟨rfl, hsmall, ?_⟩
  intro hs
  exact hsmall (lt_of_lt_of_le (by norm_num) (fdiv_nonneg _ _ hs hh))

theorem visibleRange_bounds_witness :
    (visibleRange { scenario "abc\ndef\nghi".toList 10 20 with scrollPosition := 10 } 3).1 = 1 ∧
      (visibleRange { scenario "abc\ndef\nghi".toList 10 20 with scrollPosition := 10 } 3).2 =
        3 := by
  have hc : (scenario "abc\ndef\nghi".toList 10 20).charHeight = 10 :=
    (scenario_fields _ _ _).2.2.1
  have hq : fdiv (10 : ℚ) (scenario "abc\ndef\nghi".toList 10 20).charHeight = 1 := by
    rw [hc]
    exact fdiv_eq_intCast 10 10 1 (by norm_num) (by decide)
  have hv := scenario_abc_visibleLines
  have ht : truncate (1 : ℚ) = 1 := truncate_intCast 1
  obtain ⟨h1, h2⟩ := visibleRange_bounds
    { scenario "abc\ndef\nghi".toList 10 20 with scrollPosition := 10 } 3
    (by rw [show ({ scenario "abc\ndef\nghi".toList 10 20 with scrollPosition := 10 } :
          EditorItem Text).charHeight = 10 from hc]; norm_num)
    (by show -2 ^ 63 ≤ fdiv (10 : ℚ) (scenario "abc\ndef\nghi".toList 10 20).charHeight
        rw [hq]; norm_num)
    (by show fdiv (10 : ℚ) (scenario "abc\ndef\nghi".toList 10 20).charHeight < 2 ^ 63
        rw [hq]; norm_num)
  have h3 := h2
    (by show -2 ^ 63 ≤ truncate (fdiv (10 : ℚ) (scenario "abc\ndef\nghi".toList 10 20).charHeight)
          + (scenario "abc\ndef\nghi".toList 10 20).visibleLines + 1
        rw [hq, hv, ht]; decide)
    (by show truncate (fdiv (10 : ℚ) (scenario "abc\ndef\nghi".toList 10 20).charHeight)
          + (scenario "abc\ndef\nghi".toList 10 20).visibleLines + 1 < 2 ^ 63
        rw [hq, hv, ht]; decide)
  constructor
  · rw [h1]
    show max 0 ⌊fdiv (10 : ℚ) (scenario "abc\ndef\nghi".toList 10 20).charHeight⌋ = 1
    rw [hq]
    have hf : ⌊(1 : ℚ)⌋ = 1 := Int.floor_one
    rw [hf]
    rfl
  · rw [h3.1]
    show min 3 (truncate (fdiv (10 : ℚ) (scenario "abc\ndef\nghi".toList 10 20).charHeight)
          + (scenario "abc\ndef\nghi".toList 10 20).visibleLines + 1) = 3
    rw [hq, hv, ht]
    decide

/-! ## Claims on the selection rectangles -/

theorem lineStart_zero (lines : List Text) : lineStart lines 0 = 0 := by
  simp [lineStart]

theorem lineStart_cons_succ (line : Text) (lines : List Text) (i : Nat) :
    lineStart (line :: lines) (i + 1) = (line.length : Int) + 1 + lineStart lines i := by
  simp [lineStart]

theorem lineStart_nonneg (lines : List Text) (i : Nat) : 0 ≤ lineStart lines i := by
  induction lines generalizing i with
  | nil => simp [lineStart]
  | cons l ls ih =>
    cases i with
    | zero => simp [lineStart]
    | succ i =>
      rw [lineStart_cons_succ]
      have := ih i
      omega

/-- A line and its newline end at or before the start of every later line. -/
theorem lineStart_add_length_le (lines : List Text) (i : Nat) (hi : i < lines.length) :
    lineStart lines i + ((lines.getD i []).length : Int) + 1 ≤ lineStart lines lines.length := by
  induction lines generalizing i with
  | nil => simp at hi
  | cons l ls ih =>
    cases i with
    | zero =>
      rw [lineStart_zero, List.length_cons, lineStart_cons_succ]
      have := lineStart_nonneg ls ls.length
      simp only [List.getD_cons_zero]
      omega
    | succ i =>
      rw [List.length_cons, lineStart_cons_succ, lineStart_cons_succ]
      have := ih i (by simpa using hi)
      simp only [List.getD_cons_succ]
      omega

/-- The loop of `renderSelection` from the line after a prefix `pre`, started
with the running count of that prefix, treats line `pre.length + j` with the
offset of its first character. -/
theorem renderSelectionLoop_eq (e : EditorItem β) (pre rest : List Text) :
    renderSelectionLoop e rest pre.length (lineStart (pre ++ rest) pre.length) =
      (List.range rest.length).filterMap (fun j =>
        selectionRect e (pre.length + j) ((pre ++ rest).getD (pre.length + j) [])
          (lineStart (pre ++ rest) (pre.length + j))) := by
  induction rest generalizing pre with
  | nil => simp [renderSelectionLoop]
  | cons line rest ih =>
    have hstep : lineStart (pre ++ line :: rest) pre.length + (line.length : Int) + 1 =
        lineStart ((pre ++ [line]) ++ rest) (pre ++ [line]).length := by
      simp [lineStart, List.take_append_eq_append_take, List.take_of_length_le]
      omega
    have happ : (pre ++ [line]) ++ rest = pre ++ line :: rest := by simp
    rw [renderSelectionLoop, hstep]
    have hlen : pre.length + 1 = (pre ++ [line]).length := by simp
    rw [hlen, ih (pre ++ [line]), List.length_cons, List.range_succ_eq_map,
      List.filterMap_cons, List.filterMap_map, happ]
    have h0 : (pre ++ line :: rest).getD pre.length [] = line := by
      rw [List.getD_eq_getElem?_getD, List.getElem?_append_right (le_refl _)]
      simp
    have hfun : (fun j => selectionRect e ((pre ++ [line]).length + j)
          ((pre ++ line :: rest).getD ((pre ++ [line]).length + j) [])
          (lineStart (pre ++ line :: rest) ((pre ++ [line]).length + j))) =
        ((fun j => selectionRect e (pre.length + j)
          ((pre ++ line :: rest).getD (pre.length + j) [])
          (lineStart (pre ++ line :: rest) (pre.length + j))) ∘ Nat.succ) := by
      funext j
      simp only [Function.comp, List.length_append, List.length_singleton, Nat.succ_eq_add_one]
      have : pre.length + 1 + j = pre.length + (j + 1) := by omega
      rw [this]
    rw [hfun]
    simp only [Nat.add_zero]
    rw [h0]
    cases selectionRect e pre.length line (lineStart (pre ++ line :: rest) pre.length) <;> rfl

/-- The loop body of `renderSelection` at the offset of the first character
of line `i`, when no subtraction wraps around. -/
theorem selectionRect_eq_clippedRect (e : EditorItem β) (lines : List Text) (i : Nat)
    (hi : i < lines.length) (hlt : e._selectionStart < e._selectionEnd)
    (hlo : -2 ^ 63 ≤ e._selectionStart - lineStart lines lines.length)
    (hhi : e._selectionEnd < 2 ^ 63) :
    selectionRect e i (lines.getD i []) (lineStart lines i) = clippedRect e lines i := by
  have h0 := lineStart_nonneg lines i
  have h1 := lineStart_add_length_le lines i hi
  unfold selectionRect clippedRect
  simp only
  by_cases hc : e._selectionStart ≤ lineStart lines i + ((lines.getD i []).length : Int) ∧
      e._selectionEnd ≥ lineStart lines i
  · rw [if_pos hc, wrap64_of_fits _ (by omega) (by omega), wrap64_of_fits _ (by omega) (by omega)]
    have ha : (if e._selectionStart - lineStart lines i < 0 then 0
        else e._selectionStart - lineStart lines i) = max 0 (e._selectionStart - lineStart lines i) := by
      split <;> omega
    have hb : (if e._selectionEnd - lineStart lines i > ((lines.getD i []).length : Int)
        then ((lines.getD i []).length : Int) else e._selectionEnd - lineStart lines i) =
        min ((lines.getD i []).length : Int) (e._selectionEnd - lineStart lines i) := by
      split <;> omega
    rw [ha, hb]
  · rw [if_neg hc, if_neg]
    omega

/-- C10, the claim fails: in the text of lines `ab` and `cd` with the active
selection from offset 0 to offset 3, line 1 spans the offsets 3 to 5 and so
meets the selection at offset 3, yet `renderSelection` fills a single
rectangle, the one of line 0. -/
theorem renderSelection_touching_line :
    renderSelection
        { scenario "ab\ncd".toList 10 20 with
          _selectionStart := 0, _selectionEnd := 3, selectionActive := true }
        = [⟨60, 0, 16, 10⟩] ∧
      lineStart (getLines "ab\ncd".toList) 1 = 3 ∧
      ((getLines "ab\ncd".toList).getD 1 []).length = 2 ∧
      (0 : Int) ≤ 3 + 2 ∧ (3 : Int) ≤ 3 := by
  have hl : getLines "ab\ncd".toList = ["ab".toList, "cd".toList] := by decide
  refine ⟨?_, by decide, by decide, by decide, by decide⟩
  obtain ⟨ht, hw, hh, hs⟩ := scenario_fields "ab\ncd".toList 10 20
  generalize scenario "ab\ncd".toList 10 20 = e0 at ht hw hh hs ⊢
  have hr : renderSelection { e0 with
        _selectionStart := 0, _selectionEnd := 3, selectionActive := true } =
      renderSelectionLoop { e0 with
        _selectionStart := 0, _selectionEnd := 3, selectionActive := true }
        (getLines e0._text) 0 0 := by
    simp [renderSelection]
  rw [hr, ht, hl]
  simp [renderSelectionLoop, selectionRect, hw, hh, hs, wrap64]
  norm_num

/-- C10 as amended: for an active selection with start < end (and offsets
for which no 64-bit subtraction wraps around), `renderSelection` fills, in
line order, exactly one rectangle for each line on which the selection
clipped to the columns `[0, len(line)]` is a non-empty column range, that is
for each line with at least one character at an offset in `[start, end)`,
and none for any other line, in particular none for a line that the
selection only touches at one end; the rectangle spans the clipped columns
and its Y coordinate is `lineIndex * charHeight - scrollPosition`. -/
theorem renderSelection_rects (e : EditorItem β) (ha : e.selectionActive = true)
    (hlt : e._selectionStart < e._selectionEnd)
    (hlo : -2 ^ 63 ≤
      e._selectionStart - lineStart (getLines e._text) (getLines e._text).length)
    (hhi : e._selectionEnd < 2 ^ 63) :
    renderSelection e =
        (List.range (getLines e._text).length).filterMap (clippedRect e (getLines e._text)) ∧
      ∀ i, ((clippedRect e (getLines e._text) i).isSome ↔
        max e._selectionStart (lineStart (getLines e._text) i) <
          min e._selectionEnd
            (lineStart (getLines e._text) i + (((getLines e._text).getD i []).length : Int))) := by
  constructor
  · have hne : ¬ (e._selectionStart = e._selectionEnd) := by omega
    have h := renderSelectionLoop_eq e [] (getLines e._text)
    simp only [List.length_nil, List.nil_append, Nat.zero_add, lineStart_zero] at h
    simp only [renderSelection, ha, Bool.not_true, Bool.false_or, beq_iff_eq, hne, if_false, h]
    apply List.filterMap_congr
    intro i hi
    exact selectionRect_eq_clippedRect e _ i (List.mem_range.1 hi) hlt hlo hhi
  · intro i
    unfold clippedRect
    simp only
    split
    · rename_i h
      simp only [Option.isSome_some, true_iff]
      omega
    · rename_i h
      simp only [Option.isSome_none, Bool.false_eq_true, false_iff]
      omega

theorem renderSelection_rects_witness :
    renderSelection
        { scenario "ab\ncd".toList 10 20 with
          _selectionStart := 0, _selectionEnd := 3, selectionActive := true } =
      (List.range (getLines "ab\ncd".toList).length).filterMap
        (clippedRect
          { scenario "ab\ncd".toList 10 20 with
            _selectionStart := 0, _selectionEnd := 3, selectionActive := true }
          (getLines "ab\ncd".toList)) := by
  have ht : (scenario "ab\ncd".toList 10 20)._text = "ab\ncd".toList :=
    (scenario_fields _ _ _).1
  have h := (renderSelection_rects
    { scenario "ab\ncd".toList 10 20 with
      _selectionStart := 0, _selectionEnd := 3, selectionActive := true }
    rfl (by decide)
    (by show -2 ^ 63 ≤ (0 : Int) - lineStart (getLines (scenario "ab\ncd".toList 10 20)._text)
          (getLines (scenario "ab\ncd".toList 10 20)._text).length
        rw [ht]; decide)
    (by decide)).1
  rw [show ({ scenario "ab\ncd".toList 10 20 with
      _selectionStart := 0, _selectionEnd := 3, selectionActive := true } :
      EditorItem Text)._text = "ab\ncd".toList from ht] at h
  exact h

/-! ## Claims on the span of the line index -/

/-- The segments of a text, each counted with one separator, count one more
than the characters of the text. -/
theorem sum_length_splitOn (T : Text) :
    ((T.splitOn '\n').map (fun line => line.length + 1)).sum = T.length + 1 := by
  induction T with
  | nil => simp
  | cons c cs ih =>
    rw [splitOn_cons]
    by_cases hc : c = '\n'
    · simp only [hc, if_true, List.map_cons, List.sum_cons, List.length_nil, List.length_cons, ih]
      omega
    · cases hs : cs.splitOn '\n' with
      | nil => exact absurd hs (splitOn_ne_nil cs)
      | cons seg segs =>
        rw [hs] at ih
        simp only [hc, if_false, List.modifyHead, List.map_cons, List.sum_cons,
          List.length_cons] at ih ⊢
        omega

theorem indexSpan_add_one (lines : List Text) (h : lines ≠ []) :
    indexSpan lines + 1 = (lines.map (fun line => line.length + 1)).sum := by
  obtain ⟨front, last, rfl⟩ : ∃ front last, lines = front ++ [last] :=
    ⟨lines.dropLast, lines.getLast h, (List.dropLast_append_getLast h).symm⟩
  simp [indexSpan]
  omega

theorem splitOn_eq_getLines_append (T : Text) (h : T.getLast? = some '\n') :
    T.splitOn '\n' = getLines T ++ [[]] := by
  have h1 : getLines T = (T.splitOn '\n').dropLast := by
    rw [getLines_eq, if_pos (Or.inr h)]
  have h2 := getLast_splitOn T h
  have h3 := List.dropLast_append_getLast (splitOn_ne_nil T)
  rw [List.getLast?_eq_getLast _ (splitOn_ne_nil T)] at h2
  rw [← h3, h1, Option.some.inj h2]

/-- The line index of a non-empty text has at least one line. -/
theorem getLines_ne_nil (T : Text) (hT : T ≠ []) : getLines T ≠ [] := by
  by_cases hl : T.getLast? = some '\n'
  · intro hnil
    have h1 := splitOn_eq_getLines_append T hl
    have h2 := length_splitOn T
    rw [h1, hnil] at h2
    have h3 : 0 < T.count '\n' := by
      rw [List.count_pos_iff]
      exact List.mem_of_getLast?_eq_some hl
    simp at h2
    omega
  · rw [getLines_eq, if_neg (by simp [hT, hl])]
    exact splitOn_ne_nil T

/-- C11, the claim fails: for the text `a` followed by a newline the line
index is the single line `a`, whose span is 1, while the text has 2
characters. -/
theorem indexSpan_trailing_newline :
    getLines "a\n".toList = ["a".toList] ∧ indexSpan (getLines "a\n".toList) = 1 ∧
      "a\n".toList.length = 2 ∧ indexSpan (getLines "a\n".toList) ≠ "a\n".toList.length := by
  refine ⟨by decide, by decide, by decide, by decide⟩

/-- C11 as amended: the line index of a non-empty text is not empty; when
the text does not end in a newline, the sum of (length + 1) over every line
but the last plus the length of the last line is the length of the text;
when the text ends in a newline that sum is the length of the text minus 1,
the final newline not being counted. -/
theorem indexSpan_getLines (T : Text) (hT : T ≠ []) :
    getLines T ≠ [] ∧
      (T.getLast? ≠ some '\n' → indexSpan (getLines T) = T.length) ∧
      (T.getLast? = some '\n' → indexSpan (getLines T) + 1 = T.length) := by
  have hne := getLines_ne_nil T hT
  have hspan := indexSpan_add_one (getLines T) hne
  have hsum := sum_length_splitOn T
  refine ⟨hne, ?_, ?_⟩
  · intro hl
    have hg : getLines T = T.splitOn '\n' := by
      rw [getLines_eq, if_neg (by simp [hT, hl])]
    rw [hg] at hspan ⊢
    have h := hspan.trans hsum
    omega
  · intro hl
    rw [splitOn_eq_getLines_append T hl] at hsum
    have h : ((getLines T).map (fun line => line.length + 1)).sum = T.length := by
      simpa using hsum
    exact hspan.trans h

theorem indexSpan_getLines_witness :
    getLines "ab\ncd".toList ≠ [] ∧
      ("ab\ncd".toList.getLast? ≠ some '\n' →
        indexSpan (getLines "ab\ncd".toList) = "ab\ncd".toList.length) ∧
      ("ab\ncd".toList.getLast? = some '\n' →
        indexSpan (getLines "ab\ncd".toList) + 1 = "ab\ncd".toList.length) :=
  indexSpan_getLines "ab\ncd".toList (by decide)

/-! ## Claims on paging -/

theorem updateCursorFromPosition_fields (ops : BackendOps β) (e : EditorItem β) :
    (updateCursorFromPosition ops e).scrollPosition = e.scrollPosition ∧
      (updateCursorFromPosition ops e).visibleLines = e.visibleLines ∧
      (updateCursorFromPosition ops e).charHeight = e.charHeight ∧
      (updateCursorFromPosition ops e).view = e.view := by
  unfold updateCursorFromPosition
  split <;> exact ⟨rfl, rfl, rfl, rfl⟩

/-- With a non-nil view `PageDown` announces one position, the `float64` sum
of the scroll position and `float64(visibleLines) * charHeight`, and its
handling stores it. -/
theorem pageDownApplied_fields (ops : BackendOps β) (e : EditorItem β) (hv : e.view = true) :
    (pageDownApplied ops e).scrollPosition =
        fadd e.scrollPosition (fmul (float64 e.visibleLines) e.charHeight) ∧
      (pageDownApplied ops e).visibleLines = e.visibleLines ∧
      (pageDownApplied ops e).charHeight = e.charHeight ∧
      (pageDownApplied ops e).view = true := by
  simp [pageDownApplied, applyAnnounced, PageDown, hv, updateCursorFromPosition,
    UpdateScrollPosition]

/-- With a non-nil view `PageUp` announces one position, the `float64`
difference of the scroll position and `float64(visibleLines) * charHeight`,
and its handling stores it. -/
theorem pageUpApplied_fields (ops : BackendOps β) (e : EditorItem β) (hv : e.view = true) :
    (pageUpApplied ops e).scrollPosition =
        fsub e.scrollPosition (fmul (float64 e.visibleLines) e.charHeight) ∧
      (pageUpApplied ops e).visibleLines = e.visibleLines ∧
      (pageUpApplied ops e).charHeight = e.charHeight ∧
      (pageUpApplied ops e).view = true := by
  simp [pageUpApplied, applyAnnounced, PageUp, hv, updateCursorFromPosition,
    UpdateScrollPosition]

/-- The `float64` arithmetic of a page down and a page up from 16.8 with 28
visible lines of height 16.8. -/
theorem paging_arithmetic :
    fmul (float64 28) float16_8 = 8275364315293287 / 2 ^ 44 ∧
      fadd float16_8 (8275364315293287 / 2 ^ 44) = 8570913040839476 / 2 ^ 44 ∧
      fsub (8570913040839476 / 2 ^ 44) (8275364315293287 / 2 ^ 44) =
        4728779608739024 / 2 ^ 48 := by
  have h28 : float64 28 = 28 := by
    unfold float64
    exact_mod_cast roundF64_intCast 28 (by decide)
  refine ⟨?_, ?_, ?_⟩
  · rw [h28]
    unfold fmul float16_8
    rw [roundF64_eq _ 8 8275364315293287 (by norm_num [abs_of_pos])
      (by norm_num [abs_of_pos]) (by norm_num) (by norm_num) (by norm_num)]
    norm_num
  · unfold fadd float16_8
    rw [roundF64_eq _ 8 8570913040839476 (by norm_num [abs_of_pos])
      (by norm_num [abs_of_pos]) (by norm_num) (by norm_num) (by norm_num)]
    norm_num
  · unfold fsub
    rw [roundF64_eq _ 4 4728779608739024 (by norm_num [abs_of_pos])
      (by norm_num [abs_of_pos]) (by norm_num) (by norm_num) (by norm_num)]
    norm_num

/-- The 28 visible lines of `pagingExample` are what `updateContentSize`
derives from its height 480 and its `charHeight`. -/
theorem pagingExample_visibleLines :
    truncToInt (fdiv pagingExample.height pagingExample.charHeight) =
      pagingExample.visibleLines := by
  have hq : fdiv 480 float16_8 = 8042142191733028 / 2 ^ 48 := by
    unfold fdiv float16_8
    rw [roundF64_eq _ 4 8042142191733028 (by norm_num [abs_of_pos])
      (by norm_num [abs_of_pos]) (by norm_num) (by norm_num) (by norm_num)]
    norm_num
  show truncToInt (fdiv 480 float16_8) = 28
  rw [hq, truncToInt_of_fits _ (by norm_num) (by norm_num),
    truncate_of_nonneg _ (by norm_num)]
  exact Int.floor_eq_iff.2 ⟨by norm_num, by norm_num⟩

/-- C12, the claim fails: on the item with a non-nil view, `charHeight` 16.8,
28 visible lines and the scroll position at 16.8, `PageDown` followed by
`PageUp`, each announced position applied through `UpdateScrollPosition`,
leaves the scroll position three units in the last place above 16.8 (it
prints as 16.80000000000001): the sum 16.8 + 470.4 is rounded, and
subtracting 470.4 again does not undo the rounding. -/
theorem pageDown_pageUp_rounds :
    pagingExample.view = true ∧
      pagingExample.scrollPosition = 4728779608739021 / 2 ^ 48 ∧
      (pageUpApplied toyOps (pageDownApplied toyOps pagingExample)).scrollPosition =
        4728779608739024 / 2 ^ 48 ∧
      (pageUpApplied toyOps (pageDownApplied toyOps pagingExample)).scrollPosition ≠
        pagingExample.scrollPosition := by
  obtain ⟨h1, h2, h3, h4⟩ := pageDownApplied_fields toyOps pagingExample rfl
  obtain ⟨h5, _, _, _⟩ := pageUpApplied_fields toyOps (pageDownApplied toyOps pagingExample) h4
  obtain ⟨a1, a2, a3⟩ := paging_arithmetic
  have hs : pagingExample.scrollPosition = float16_8 := rfl
  have hvl : pagingExample.visibleLines = 28 := rfl
  have hch : pagingExample.charHeight = float16_8 := rfl
  have hfinal : (pageUpApplied toyOps (pageDownApplied toyOps pagingExample)).scrollPosition =
      4728779608739024 / 2 ^ 48 := by
    rw [h5, h1, h2, h3, hs, hvl, hch, a1, a2, a3]
  refine ⟨rfl, ?_, hfinal, ?_⟩
  · rw [hs]
    rfl
  · rw [hfinal, hs]
    unfold float16_8
    norm_num

/-- C12 as amended: on an item with a non-nil view, when every announced
scroll position is applied through `UpdateScrollPosition`, `PageDown` stores
the `float64` sum `s + d` of the scroll position `s` and the `float64`
product `d = float64(visibleLines) * charHeight`, changing neither factor,
and `PageUp` after it stores the `float64` difference of that sum and `d`.
The scroll position is back at `s` whenever the sum `s + d` is a `float64`
value itself, so that the addition does not round (`s` being a `float64`). -/
theorem pageDown_pageUp_round_trip (ops : BackendOps β) (e : EditorItem β)
    (hv : e.view = true) :
    (pageDownApplied ops e).scrollPosition =
        fadd e.scrollPosition (fmul (float64 e.visibleLines) e.charHeight) ∧
      (pageDownApplied ops e).visibleLines = e.visibleLines ∧
      (pageDownApplied ops e).charHeight = e.charHeight ∧
      (pageUpApplied ops (pageDownApplied ops e)).scrollPosition =
        fsub (fadd e.scrollPosition (fmul (float64 e.visibleLines) e.charHeight))
          (fmul (float64 e.visibleLines) e.charHeight) ∧
      (roundF64 e.scrollPosition = e.scrollPosition →
        roundF64 (e.scrollPosition + fmul (float64 e.visibleLines) e.charHeight) =
          e.scrollPosition + fmul (float64 e.visibleLines) e.charHeight →
        (pageUpApplied ops (pageDownApplied ops e)).scrollPosition = e.scrollPosition) := by
  obtain ⟨h1, h2, h3, h4⟩ := pageDownApplied_fields ops e hv
  obtain ⟨h5, _, _, _⟩ := pageUpApplied_fields ops (pageDownApplied ops e) h4
  have hfinal : (pageUpApplied ops (pageDownApplied ops e)).scrollPosition =
      fsub (fadd e.scrollPosition (fmul (float64 e.visibleLines) e.charHeight))
        (fmul (float64 e.visibleLines) e.charHeight) := by
    rw [h5, h1, h2, h3]
  refine ⟨h1, h2, h3, hfinal, ?_⟩
  intro hs hsum
  rw [hfinal]
  unfold fsub fadd
  rw [hsum, add_sub_cancel_right, hs]

theorem pageDown_pageUp_round_trip_witness :
    (pageDownApplied toyOps (scenario "abc\ndef\nghi".toList 10 20)).scrollPosition = 20 ∧
      (pageUpApplied toyOps
          (pageDownApplied toyOps (scenario "abc\ndef\nghi".toList 10 20))).scrollPosition =
        (scenario "abc\ndef\nghi".toList 10 20).scrollPosition := by
  obtain ⟨_, _, hc, hs⟩ := scenario_fields "abc\ndef\nghi".toList 10 20
  have hv := scenario_abc_visibleLines
  have h2 : float64 2 = 2 := by
    unfold float64
    exact_mod_cast roundF64_intCast 2 (by decide)
  have h20 : roundF64 20 = 20 := by exact_mod_cast roundF64_intCast 20 (by decide)
  have h0 : roundF64 0 = 0 := by exact_mod_cast roundF64_intCast 0 (by decide)
  have hd : fmul (float64 (scenario "abc\ndef\nghi".toList 10 20).visibleLines)
      (scenario "abc\ndef\nghi".toList 10 20).charHeight = 20 := by
    rw [hv, hc, h2]
    unfold fmul
    norm_num
    exact h20
  obtain ⟨h1, _, _, _, h5⟩ := pageDown_pageUp_round_trip toyOps
    (scenario "abc\ndef\nghi".toList 10 20)
    (by unfold scenario updateContentSize; split <;> rfl)
  refine ⟨?_, h5 (by rw [hs]; exact h0) (by rw [hs, hd]; norm_num; exact h20)⟩
  rw [h1, hs, hd]
  unfold fadd
  norm_num
  exact h20

/-! ## Claims on the metrics guard -/

/-- C13: when `charWidth` or `charHeight` is not strictly positive,
`updateContentSize` returns the item as it received it: the guarded block,
the only place that divides by a metric, is skipped, and `contentWidth`,
`contentHeight`, `visibleLines` and `visibleColumns` keep their values. -/
theorem updateContentSize_refuses (e : EditorItem β)
    (h : ¬ (e.charWidth > 0) ∨ ¬ (e.charHeight > 0)) :
    updateContentSize e = e ∧
      (updateContentSize e).contentWidth = e.contentWidth ∧
      (updateContentSize e).contentHeight = e.contentHeight ∧
      (updateContentSize e).visibleLines = e.visibleLines ∧
      (updateContentSize e).visibleColumns = e.visibleColumns := by
  have hg : ¬ (e.charWidth > 0 ∧ e.charHeight > 0) := by
    rintro ⟨h1, h2⟩
    rcases h with h | h
    · exact h h1
    · exact h h2
  have he : updateContentSize e = e := by
    unfold updateContentSize
    rw [if_neg hg]
  rw [he]
  exact ⟨rfl, rfl, rfl, rfl, rfl⟩

theorem updateContentSize_refuses_witness :
    updateContentSize
        { EditorItem.fresh 0 10 640 20 "ab".toList with
          _text := "ab".toList, contentHeight := 7, visibleLines := 3 } =
      { EditorItem.fresh 0 10 640 20 "ab".toList with
        _text := "ab".toList, contentHeight := 7, visibleLines := 3 } :=
  (updateContentSize_refuses
    { EditorItem.fresh 0 10 640 20 "ab".toList with
      _text := "ab".toList, contentHeight := 7, visibleLines := 3 }
    (Or.inl (by norm_num [EditorItem.fresh]))).1

/-! ## Claims on the selected columns -/

/-- The loop body of `renderSelection` for a line that starts at offset
`charCount`, when neither subtraction wraps around. -/
theorem selectionRect_of_fits (e : EditorItem β) (i : Nat) (line : Text) (charCount : Int)
    (h0 : 0 ≤ charCount) (hlo : -2 ^ 63 ≤ e._selectionStart - charCount)
    (hhi : e._selectionEnd < 2 ^ 63) (hlen : (line.length : Int) < 2 ^ 63) :
    selectionRect e i line charCount =
      if max 0 (e._selectionStart - charCount) <
          min (line.length : Int) (e._selectionEnd - charCount) then
        some ⟨60 + ((max 0 (e._selectionStart - charCount) : Int) : ℚ) * e.charWidth,
          (i : ℚ) * e.charHeight - e.scrollPosition,
          ((min (line.length : Int) (e._selectionEnd - charCount) -
            max 0 (e._selectionStart - charCount) : Int) : ℚ) * e.charWidth,
          e.charHeight⟩
      else none := by
  unfold selectionRect
  simp only
  by_cases hc : e._selectionStart ≤ charCount + (line.length : Int) ∧
      e._selectionEnd ≥ charCount
  · rw [if_pos hc, wrap64_of_fits _ (by omega) (by omega), wrap64_of_fits _ (by omega) (by omega)]
    have ha : (if e._selectionStart - charCount < 0 then 0
        else e._selectionStart - charCount) = max 0 (e._selectionStart - charCount) := by
      split <;> omega
    have hb : (if e._selectionEnd - charCount > (line.length : Int)
        then (line.length : Int) else e._selectionEnd - charCount) =
        min (line.length : Int) (e._selectionEnd - charCount) := by
      split <;> omega
    rw [ha, hb]
  · rw [if_neg hc, if_neg]
    omega

theorem selectedChars_append (s e : Int) (xs ys : Text) (offset : Int) :
    selectedChars s e (xs ++ ys) offset =
      selectedChars s e xs offset + selectedChars s e ys (offset + (xs.length : Int)) := by
  induction xs generalizing offset with
  | nil => simp [selectedChars]
  | cons c cs ih =>
    have h : offset + 1 + (cs.length : Int) = offset + ((cs.length : Int) + 1) := by omega
    rw [List.cons_append]
    simp only [selectedChars, List.length_cons, Nat.cast_add, Nat.cast_one]
    rw [ih, h]
    omega

theorem selectedChars_newline (s e : Int) (offset : Int) :
    selectedChars s e ['\n'] offset = 0 := by
  simp [selectedChars]

/-- Nothing is selected when the end is not after the start. -/
theorem selectedChars_of_le (s e : Int) (h : e ≤ s) (T : Text) (offset : Int) :
    selectedChars s e T offset = 0 := by
  induction T generalizing offset with
  | nil => rfl
  | cons c cs ih =>
    have hn : ¬ (c ≠ '\n' ∧ s ≤ offset ∧ offset < e) := by
      rintro ⟨_, h1, h2⟩
      omega
    simp only [selectedChars, if_neg hn, ih, Nat.add_zero]

/-- On a line without a newline the selected characters are the columns of
the clipped range. -/
theorem selectedChars_line (s e : Int) (line : Text) (offset : Int)
    (hnl : '\n' ∉ line) :
    (selectedChars s e line offset : Int) =
      max 0 (min (line.length : Int) (e - offset) - max 0 (s - offset)) := by
  induction line generalizing offset with
  | nil =>
    simp only [selectedChars, List.length_nil, Nat.cast_zero]
    omega
  | cons c cs ih =>
    have hc : c ≠ '\n' := fun h => hnl (h ▸ List.mem_cons_self _ _)
    have hcs : '\n' ∉ cs := fun h => hnl (List.mem_cons_of_mem _ h)
    have h := ih (offset + 1) hcs
    simp only [selectedChars, List.length_cons, Nat.cast_add, Nat.cast_one]
    by_cases hin : s ≤ offset ∧ offset < e
    · rw [if_pos ⟨hc, hin⟩]
      omega
    · rw [if_neg (fun hh => hin hh.2)]
      omega

theorem unlines_cons (line : Text) (lines : List Text) :
    unlines (line :: lines) = line ++ '\n' :: unlines lines := by
  simp [unlines]

theorem unlines_append (xs ys : List Text) : unlines (xs ++ ys) = unlines xs ++ unlines ys := by
  simp [unlines]

/-- The segments of a text, each followed by a newline, spell the text
followed by a newline. -/
theorem unlines_splitOn (T : Text) : unlines (T.splitOn '\n') = T ++ ['\n'] := by
  induction T with
  | nil => simp [unlines]
  | cons c cs ih =>
    rw [splitOn_cons]
    by_cases hc : c = '\n'
    · rw [if_pos hc, unlines_cons, ih, hc]
      rfl
    · rw [if_neg hc]
      cases hs : cs.splitOn '\n' with
      | nil => exact absurd hs (splitOn_ne_nil cs)
      | cons seg segs =>
        rw [hs, unlines_cons] at ih
        rw [List.modifyHead, unlines_cons, List.cons_append, ih, List.cons_append]

theorem not_mem_splitOn (T : Text) : ∀ seg ∈ T.splitOn '\n', '\n' ∉ seg := by
  induction T with
  | nil => simp
  | cons c cs ih =>
    rw [splitOn_cons]
    by_cases hc : c = '\n'
    · rw [if_pos hc]
      intro seg hseg
      rcases List.mem_cons.1 hseg with rfl | hseg
      · simp
      · exact ih seg hseg
    · rw [if_neg hc]
      cases hs : cs.splitOn '\n' with
      | nil => exact absurd hs (splitOn_ne_nil cs)
      | cons seg0 segs =>
        rw [hs] at ih
        intro seg hseg
        simp only [List.modifyHead, List.mem_cons] at hseg
        rcases hseg with rfl | hseg
        · intro hmem
          rcases List.mem_cons.1 hmem with h | h
          · exact hc h.symm
          · exact ih seg0 (List.mem_cons_self _ _) h
        · exact ih seg (List.mem_cons_of_mem _ hseg)

/-- No line of the line index contains a newline. -/
theorem not_mem_getLines (T : Text) : ∀ line ∈ getLines T, '\n' ∉ line := by
  intro line hline
  rw [getLines_eq] at hline
  split at hline
  · exact not_mem_splitOn T line (List.mem_of_mem_dropLast hline)
  · exact not_mem_splitOn T line hline

/-- The line index written out again is the text, up to a final newline. -/
theorem unlines_getLines (T : Text) :
    unlines (getLines T) = T ∨ unlines (getLines T) = T ++ ['\n'] := by
  by_cases hT : T = []
  · left; subst hT; rfl
  · by_cases hl : T.getLast? = some '\n'
    · left
      have h := unlines_splitOn T
      rw [splitOn_eq_getLines_append T hl, unlines_append] at h
      exact List.append_cancel_right h
    · right
      rw [getLines_eq, if_neg (by simp [hT, hl])]
      exact unlines_splitOn T

theorem totalWidth_append (xs ys : List Rect) :
    totalWidth (xs ++ ys) = totalWidth xs + totalWidth ys := by
  simp [totalWidth]

/-- The total width filled by the loop of `renderSelection`, when no
subtraction wraps around: the selected characters of the remaining lines
times `charWidth`. -/
theorem totalWidth_renderSelectionLoop (e : EditorItem β) (rest : List Text) (i : Nat)
    (charCount : Int) (h0 : 0 ≤ charCount) (hnl : ∀ line ∈ rest, '\n' ∉ line)
    (hlo : -2 ^ 63 ≤ e._selectionStart - (charCount + ((unlines rest).length : Int)))
    (hhi : e._selectionEnd < 2 ^ 63)
    (hlen : charCount + ((unlines rest).length : Int) < 2 ^ 63) :
    totalWidth (renderSelectionLoop e rest i charCount) =
      (selectedChars e._selectionStart e._selectionEnd (unlines rest) charCount : ℚ)
        * e.charWidth := by
  induction rest generalizing i charCount with
  | nil => simp [renderSelectionLoop, totalWidth, unlines, selectedChars]
  | cons line rest ih =>
    have hlenU : ((unlines (line :: rest)).length : Int) =
        (line.length : Int) + 1 + ((unlines rest).length : Int) := by
      rw [unlines_cons]
      simp only [List.length_append, List.length_cons, Nat.cast_add, Nat.cast_one]
      omega
    rw [hlenU] at hlo hlen
    have hrest := ih (i + 1) (charCount + (line.length : Int) + 1) (by omega)
      (fun l hl => hnl l (List.mem_cons_of_mem _ hl)) (by omega) (by omega)
    have hline := selectedChars_line e._selectionStart e._selectionEnd line charCount
      (hnl line (List.mem_cons_self _ _))
    have hsplit : selectedChars e._selectionStart e._selectionEnd (unlines (line :: rest))
        charCount =
        selectedChars e._selectionStart e._selectionEnd line charCount +
          selectedChars e._selectionStart e._selectionEnd (unlines rest)
            (charCount + (line.length : Int) + 1) := by
      rw [unlines_cons, selectedChars_append]
      simp only [selectedChars]
      have hnn : ¬ ('\n' ≠ '\n' ∧ e._selectionStart ≤ charCount + (line.length : Int) ∧
          charCount + (line.length : Int) < e._selectionEnd) := fun h => h.1 rfl
      rw [if_neg hnn]
      omega
    rw [renderSelectionLoop, totalWidth_append, hrest, hsplit,
      selectionRect_of_fits e i line charCount h0 (by omega) hhi (by omega)]
    have hq : ((selectedChars e._selectionStart e._selectionEnd line charCount : ℕ) : ℚ) =
        ((max 0 (min (line.length : Int) (e._selectionEnd - charCount) -
          max 0 (e._selectionStart - charCount)) : Int) : ℚ) := by
      rw [← hline]
      simp
    push_cast
    rw [hq]
    by_cases hab : max 0 (e._selectionStart - charCount) <
        min (line.length : Int) (e._selectionEnd - charCount)
    · rw [if_pos hab]
      have hm : max 0 (min (line.length : Int) (e._selectionEnd - charCount) -
          max 0 (e._selectionStart - charCount)) =
          min (line.length : Int) (e._selectionEnd - charCount) -
            max 0 (e._selectionStart - charCount) := by omega
      rw [hm]
      simp [totalWidth]
      ring
    · rw [if_neg hab]
      have hm : max 0 (min (line.length : Int) (e._selectionEnd - charCount) -
          max 0 (e._selectionStart - charCount)) = 0 := by omega
      rw [hm]
      simp [totalWidth]

theorem lineStart_length (lines : List Text) :
    lineStart lines lines.length = ((unlines lines).length : Int) := by
  induction lines with
  | nil => simp [lineStart, unlines]
  | cons l ls ih =>
    rw [List.length_cons, lineStart_cons_succ, ih, unlines_cons]
    simp only [List.length_append, List.length_cons, Nat.cast_add, Nat.cast_one]
    omega

theorem lineStart_le_length (lines : List Text) (i : Nat) (hi : i < lines.length) :
    lineStart lines i + ((lines.getD i []).length : Int) + 1 ≤ ((unlines lines).length : Int) := by
  rw [← lineStart_length]
  exact lineStart_add_length_le lines i hi

theorem length_unlines_getLines (T : Text) :
    ((unlines (getLines T)).length : Int) ≤ (T.length : Int) + 1 := by
  rcases unlines_getLines T with h | h
  · rw [h]; omega
  · rw [h]; simp

theorem selectedChars_unlines_getLines (s e : Int) (T : Text) (offset : Int) :
    selectedChars s e (unlines (getLines T)) offset = selectedChars s e T offset := by
  rcases unlines_getLines T with h | h
  · rw [h]
  · rw [h, selectedChars_append, selectedChars_newline]
    rfl

/-- What `renderSelection` fills when no 64-bit subtraction wraps around
(the selection start is at least `-2^63 + len(text) + 1`): one rectangle,
in line order, for each line with a column under the selection, spanning
exactly those columns, and a total width of `charWidth` times the number of
characters other than newlines at offsets in `[start, end)`, which is 0 when
the end is not after the start. -/
theorem renderSelection_columns_of_fits (e : EditorItem β) (ha : e.selectionActive = true)
    (hlo : -2 ^ 63 ≤ e._selectionStart - ((e._text.length : Int) + 1))
    (hhi : e._selectionEnd < 2 ^ 63) (hlen : (e._text.length : Int) + 1 < 2 ^ 63) :
    renderSelection e =
        (List.range (getLines e._text).length).filterMap (clippedRect e (getLines e._text)) ∧
      (∀ (i : Nat) (c : Int),
        (max 0 (e._selectionStart - lineStart (getLines e._text) i) ≤ c ∧
          c < min (((getLines e._text).getD i []).length : Int)
            (e._selectionEnd - lineStart (getLines e._text) i)) ↔
        selectedColumn (getLines e._text) e._selectionStart e._selectionEnd i c) ∧
      (∀ i : Nat, (clippedRect e (getLines e._text) i).isSome ↔
        ∃ c, selectedColumn (getLines e._text) e._selectionStart e._selectionEnd i c) ∧
      totalWidth (renderSelection e) =
        (selectedChars e._selectionStart e._selectionEnd e._text 0 : ℚ) * e.charWidth ∧
      (e._selectionEnd ≤ e._selectionStart → totalWidth (renderSelection e) = 0) := by
  have hU := length_unlines_getLines e._text
  have hcols : ∀ (i : Nat) (c : Int),
      (max 0 (e._selectionStart - lineStart (getLines e._text) i) ≤ c ∧
        c < min (((getLines e._text).getD i []).length : Int)
          (e._selectionEnd - lineStart (getLines e._text) i)) ↔
      selectedColumn (getLines e._text) e._selectionStart e._selectionEnd i c := by
    intro i c
    unfold selectedColumn
    omega
  have htotal : totalWidth (renderSelection e) =
      (selectedChars e._selectionStart e._selectionEnd e._text 0 : ℚ) * e.charWidth := by
    by_cases hse : e._selectionStart = e._selectionEnd
    · rw [selectedChars_of_le _ _ (by omega)]
      simp [renderSelection, hse, totalWidth]
    · have hloop : renderSelection e = renderSelectionLoop e (getLines e._text) 0 0 := by
        simp [renderSelection, ha, hse]
      rw [hloop, totalWidth_renderSelectionLoop e _ 0 0 (le_refl _) (not_mem_getLines e._text)
        (by omega) hhi (by omega), selectedChars_unlines_getLines]
  refine ⟨?_, hcols, ?_, htotal, ?_⟩
  · by_cases hse : e._selectionStart = e._selectionEnd
    · have hnone : ∀ i ∈ List.range (getLines e._text).length,
          clippedRect e (getLines e._text) i = none := by
        intro i _
        unfold clippedRect
        simp only
        rw [if_neg (by omega)]
      rw [List.filterMap_eq_nil_iff.2 hnone]
      simp [renderSelection, hse]
    · have h := renderSelectionLoop_eq e [] (getLines e._text)
      simp only [List.length_nil, List.nil_append, Nat.zero_add, lineStart_zero] at h
      simp only [renderSelection, ha, Bool.not_true, Bool.false_or, beq_iff_eq, hse, if_false, h]
      apply List.filterMap_congr
      intro i hi
      have hi2 := lineStart_le_length (getLines e._text) i (List.mem_range.1 hi)
      have h0 := lineStart_nonneg (getLines e._text) i
      rw [selectionRect_of_fits e i _ _ h0 (by omega) hhi (by omega)]
      rfl
  · intro i
    constructor
    · intro hsome
      have hlt : max 0 (e._selectionStart - lineStart (getLines e._text) i) <
          min (((getLines e._text).getD i []).length : Int)
            (e._selectionEnd - lineStart (getLines e._text) i) := by
        by_contra hn
        unfold clippedRect at hsome
        simp only [if_neg hn, Option.isSome_none, Bool.false_eq_true] at hsome
      exact ⟨_, (hcols i _).1 ⟨le_refl _, hlt⟩⟩
    · rintro ⟨c, hc⟩
      have h := (hcols i c).2 hc
      unfold clippedRect
      simp only
      rw [if_pos (lt_of_le_of_lt h.1 h.2)]
      rfl
  · intro hle
    rw [htotal, selectedChars_of_le _ _ hle]
    simp

/-- C14, the code departs from the claim: in the text of lines `ab` and `cd`
with the active selection from the least 64-bit integer to offset 5, the
columns 0 and 1 of line 1 (offsets 3 and 4) lie under the selection, and the
text has 4 characters other than the newline at offsets in the selection;
yet `renderSelection` fills a rectangle for line 0 only, because on line 1
the subtraction `_selectionStart - lineStart` wraps around to a large
positive column, and the total width is that of 2 characters. -/
theorem renderSelection_wraps_around :
    renderSelection
        { scenario "ab\ncd".toList 10 20 with
          _selectionStart := -2 ^ 63, _selectionEnd := 5, selectionActive := true }
        = [⟨60, 0, 16, 10⟩] ∧
      totalWidth (renderSelection
        { scenario "ab\ncd".toList 10 20 with
          _selectionStart := -2 ^ 63, _selectionEnd := 5, selectionActive := true })
        = 2 * 8 ∧
      selectedColumn (getLines "ab\ncd".toList) (-2 ^ 63) 5 1 0 ∧
      selectedColumn (getLines "ab\ncd".toList) (-2 ^ 63) 5 1 1 ∧
      selectedChars (-2 ^ 63) 5 "ab\ncd".toList 0 = 4 ∧
      wrap64 (-2 ^ 63 - lineStart (getLines "ab\ncd".toList) 1) = 2 ^ 63 - 3 := by
  have hl : getLines "ab\ncd".toList = ["ab".toList, "cd".toList] := by decide
  have hr : renderSelection
      { scenario "ab\ncd".toList 10 20 with
        _selectionStart := -2 ^ 63, _selectionEnd := 5, selectionActive := true }
      = [⟨60, 0, 16, 10⟩] := by
    obtain ⟨ht, hw, hh, hs⟩ := scenario_fields "ab\ncd".toList 10 20
    generalize scenario "ab\ncd".toList 10 20 = e0 at ht hw hh hs ⊢
    have hr : renderSelection { e0 with
          _selectionStart := -2 ^ 63, _selectionEnd := 5, selectionActive := true } =
        renderSelectionLoop { e0 with
          _selectionStart := -2 ^ 63, _selectionEnd := 5, selectionActive := true }
          (getLines e0._text) 0 0 := by
      simp [renderSelection]
    have hw1 : wrap64 (-9223372036854775808) = -9223372036854775808 := by decide
    have hw2 : wrap64 (-9223372036854775811) = 9223372036854775805 := by decide
    have hw3 : wrap64 5 = 5 := by decide
    have hw4 : wrap64 2 = 2 := by decide
    rw [hr, ht, hl]
    simp only [renderSelectionLoop, selectionRect, String.toList, List.length_cons,
      List.length_nil, Nat.cast_ofNat, Nat.cast_zero, Nat.cast_add, Nat.cast_one,
      hw, hh, hs]
    norm_num [hw1, hw2, hw3, hw4]
  refine ⟨hr, ?_, by decide, by decide, by decide, by decide⟩
  rw [hr]
  norm_num [totalWidth]

end Editor
